import Mathlib

/-!
Verification of the kticket concurrent-safe record store.

This file gives a shallow embedding of the core of the kticket repository
(record codec `internal/ticket/ticket.go`, record store
`internal/store/store.go`, identifier generator `internal/store/id.go`,
and the CLI command handlers `internal/cmd/status.go` and
`internal/cmd/link.go`) and proves the specification claims about it.

Go strings are modelled as `List Char` (`Str`): Go strings are byte
sequences, and on the ASCII data handled by the tool a byte-faithful
model coincides with a character-list model.  The fallible operations
return `Except`.
-/

namespace KT

/-- A Go string, modelled as a list of characters. -/
abbrev Str := List Char

instance {ε α : Type} [DecidableEq ε] [DecidableEq α] : DecidableEq (Except ε α) :=
  fun a b =>
  match a, b with
  | .error e, .error f =>
    if h : e = f then .isTrue (by rw [h]) else .isFalse (fun hh => h (by cases hh; rfl))
  | .error _, .ok _ => .isFalse (fun hh => by cases hh)
  | .ok _, .error _ => .isFalse (fun hh => by cases hh)
  | .ok x, .ok y =>
    if h : x = y then .isTrue (by rw [h]) else .isFalse (fun hh => h (by cases hh; rfl))

/-- Convert a Lean string literal to the `Str` model. -/
def str (s : String) : Str := s.data

/-- Model of the white-space test used by Go's `strings.TrimSpace`
(`unicode.IsSpace`), restricted to the ASCII white-space characters that
can occur in ticket files. -/
def isSpc (c : Char) : Bool := c = ' ' || c = '\t' || c = '\n' || c = '\r'

/-- Drop leading white space (left half of `strings.TrimSpace`). -/
def trimL (s : Str) : Str := s.dropWhile isSpc

/-- Drop trailing white space (right half of `strings.TrimSpace`). -/
def trimR (s : Str) : Str := (s.reverse.dropWhile isSpc).reverse

/-- Model of Go `strings.TrimSpace`. -/
def trimSpace (s : Str) : Str := trimL (trimR s)

/-- Model of Go `strings.TrimPrefix`. -/
def trimPfx (p s : Str) : Str := if p.isPrefixOf s then s.drop p.length else s

/-- Model of Go `strings.ToLower` on ASCII data. -/
def toLowerStr (s : Str) : Str := s.map Char.toLower

/-- Model of Go `strings.Contains s sub`. -/
def containsStr (s sub : Str) : Bool := decide (sub <:+: s)

/-- Model of Go `strings.Split s (string c)`: split at every occurrence
of the separator character, keeping empty fields. -/
def splitChar (c : Char) : Str → List Str
  | [] => [[]]
  | x :: xs =>
    if x = c then [] :: splitChar c xs
    else
      match splitChar c xs with
      | [] => [[x]]
      | y :: ys => (x :: y) :: ys

/-- Interleave a separator character between fields (inverse of
`splitChar`). -/
def icalate (c : Char) : List Str → Str
  | [] => []
  | [l] => l
  | l :: ls => l ++ c :: icalate c ls

/-- Join each line with a trailing separator appended, the form in which
the codec emits its output. -/
def unlinesNL (c : Char) (ls : List Str) : Str := (ls.map (· ++ [c])).flatten

theorem splitChar_ne_nil (c : Char) (s : Str) : splitChar c s ≠ [] := by
  induction s with
  | nil => simp [splitChar]
  | cons x xs ih =>
    simp only [splitChar]
    split
    · simp
    · split
      · simp
      · simp

theorem splitChar_not_mem (c : Char) (s : Str) :
    ∀ l ∈ splitChar c s, c ∉ l := by
  induction s with
  | nil => simp [splitChar]
  | cons x xs ih =>
    simp only [splitChar]
    split
    · intro l hl
      rcases List.mem_cons.mp hl with h | h
      · simp [h]
      · exact ih l h
    · rename_i hxc
      rcases hsp : splitChar c xs with _ | ⟨y, ys⟩
      · intro l hl
        rcases List.mem_cons.mp hl with h | h
        · subst h; simp; exact fun hc => hxc hc.symm
        · simp at h
      · intro l hl
        rcases List.mem_cons.mp hl with h | h
        · subst h
          intro hmem
          rcases List.mem_cons.mp hmem with h | h
          · exact hxc h.symm
          · exact ih y (hsp ▸ List.mem_cons_self y ys) h
        · exact ih l (hsp ▸ List.mem_cons_of_mem y h)

theorem icalate_splitChar (c : Char) (s : Str) :
    icalate c (splitChar c s) = s := by
  induction s with
  | nil => simp [splitChar, icalate]
  | cons x xs ih =>
    simp only [splitChar]
    split
    · rename_i hxc
      subst hxc
      rcases hsp : splitChar x xs with _ | ⟨y, ys⟩
      · exact absurd hsp (splitChar_ne_nil x xs)
      · rw [hsp] at ih
        cases ys with
        | nil =>
          simp only [icalate] at ih ⊢
          rw [ih]
          simp
        | cons z zs =>
          simp only [icalate] at ih ⊢
          rw [ih]
          simp
    · rcases hsp : splitChar c xs with _ | ⟨y, ys⟩
      · exact absurd hsp (splitChar_ne_nil c xs)
      · rw [hsp] at ih
        cases ys with
        | nil => simp only [icalate] at ih ⊢; rw [ih]
        | cons z zs =>
          simp only [icalate] at ih ⊢
          simp only [List.cons_append]
          rw [ih]

theorem splitChar_no_sep (c : Char) (l : Str) (h : c ∉ l) :
    splitChar c l = [l] := by
  induction l with
  | nil => simp [splitChar]
  | cons x xs ih =>
    simp only [splitChar]
    have hx : ¬(x = c) := fun hh => h (hh ▸ List.mem_cons_self x xs)
    rw [if_neg hx, ih (fun hm => h (List.mem_cons_of_mem x hm))]

theorem splitChar_append_sep (c : Char) (l t : Str) (h : c ∉ l) :
    splitChar c (l ++ c :: t) = l :: splitChar c t := by
  induction l with
  | nil => simp [splitChar]
  | cons x xs ih =>
    have hx : ¬(x = c) := fun hh => h (hh ▸ List.mem_cons_self x xs)
    simp only [List.cons_append, splitChar, if_neg hx, List.append_eq]
    rw [ih (fun hm => h (List.mem_cons_of_mem x hm))]

theorem splitChar_icalate (c : Char) (ls : List Str) (hne : ls ≠ [])
    (h : ∀ l ∈ ls, c ∉ l) : splitChar c (icalate c ls) = ls := by
  induction ls with
  | nil => exact absurd rfl hne
  | cons l ls ih =>
    cases ls with
    | nil =>
      simp only [icalate]
      exact splitChar_no_sep c l (h l (List.mem_cons_self l []))
    | cons m ms =>
      simp only [icalate]
      rw [splitChar_append_sep c l _ (h l (List.mem_cons_self l _))]
      rw [ih (by simp) (fun x hx => h x (List.mem_cons_of_mem l hx))]

theorem unlinesNL_eq_icalate (c : Char) (ls : List Str) (h : ls ≠ []) :
    unlinesNL c ls = icalate c ls ++ [c] := by
  induction ls with
  | nil => exact absurd rfl h
  | cons l ls ih =>
    cases ls with
    | nil => simp [unlinesNL, icalate]
    | cons m ms =>
      simp only [unlinesNL, List.map_cons, List.flatten_cons] at ih ⊢
      rw [ih (by simp)]
      simp [icalate, List.cons_append, List.append_assoc]

theorem unlinesNL_append (c : Char) (a b : List Str) :
    unlinesNL c (a ++ b) = unlinesNL c a ++ unlinesNL c b := by
  simp [unlinesNL]

theorem unlinesNL_splitChar (c : Char) (s : Str) :
    unlinesNL c (splitChar c s) = s ++ [c] := by
  rw [unlinesNL_eq_icalate c _ (splitChar_ne_nil c s), icalate_splitChar]

/-- All characters of a string are white space. -/
def AllSpc (s : Str) : Prop := ∀ c ∈ s, isSpc c

theorem trimL_allspc_append (a s : Str) (ha : AllSpc a) :
    trimL (a ++ s) = trimL s := by
  induction a with
  | nil => simp
  | cons x xs ih =>
    have hx : isSpc x := ha x (List.mem_cons_self x xs)
    simp only [List.cons_append, trimL, List.dropWhile_cons, hx, if_true]
    exact ih (fun c hc => ha c (List.mem_cons_of_mem x hc))

theorem trimL_cons_nonspc (x : Char) (s : Str) (hx : ¬ isSpc x) :
    trimL (x :: s) = x :: s := by
  simp [trimL, List.dropWhile_cons, hx]

theorem trimR_append_allspc (s b : Str) (hb : AllSpc b) :
    trimR (s ++ b) = trimR s := by
  show ((s ++ b).reverse.dropWhile isSpc).reverse = (s.reverse.dropWhile isSpc).reverse
  rw [List.reverse_append]
  have := trimL_allspc_append b.reverse s.reverse
    (fun c hc => hb c (List.mem_reverse.mp hc))
  simp only [trimL] at this
  rw [this]

theorem trimR_concat_nonspc (s : Str) (y : Char) (hy : ¬ isSpc y) :
    trimR (s ++ [y]) = s ++ [y] := by
  show ((s ++ [y]).reverse.dropWhile isSpc).reverse = s ++ [y]
  rw [List.reverse_append]
  simp only [List.reverse_cons, List.reverse_nil, List.nil_append, List.singleton_append]
  rw [List.dropWhile_cons]
  simp only [hy, if_false]
  simp

theorem trimSpace_allspc (s : Str) (hs : AllSpc s) : trimSpace s = [] := by
  have h1 : trimR s = [] := by
    have := trimR_append_allspc [] s hs
    simpa [trimR, trimL] using this
  show trimL (trimR s) = []
  rw [h1]
  rfl

theorem trimL_suffix (s : Str) : trimL s <:+ s := List.dropWhile_suffix _

theorem trimR_pfx (s : Str) : trimR s <+: s := by
  have h := List.dropWhile_suffix (l := s.reverse) (p := isSpc)
  have h2 : (s.reverse.dropWhile isSpc).reverse <+: s.reverse.reverse :=
    List.reverse_prefix.mpr h
  simpa [trimR] using h2

theorem trim_parts_of_self (v : Str) (h : trimSpace v = v) :
    trimL v = v ∧ trimR v = v := by
  have hlen1 : (trimL (trimR v)).length ≤ (trimR v).length :=
    (trimL_suffix (trimR v)).length_le
  have hlen2 : (trimR v).length ≤ v.length := (trimR_pfx v).length_le
  have hdef : trimSpace v = trimL (trimR v) := rfl
  have hv : (trimL (trimR v)).length = v.length := by rw [← hdef, h]
  have hR : trimR v = v := (trimR_pfx v).eq_of_length (by omega)
  refine ⟨?_, hR⟩
  rw [hR] at hdef
  rw [← hdef, h]

theorem head_nonspc_of_trimL (x : Char) (xs : Str) (h : trimL (x :: xs) = x :: xs) :
    ¬ isSpc x := by
  intro hx
  have h2 : trimL (x :: xs) = trimL xs := by
    simp [trimL, List.dropWhile_cons, hx]
  rw [h2] at h
  have hls := (trimL_suffix xs).length_le
  rw [h] at hls
  simp at hls

/-- Padding a self-trimmed string with white space on both sides and
trimming recovers the string. -/
theorem trim_pad (a s b : Str) (ha : AllSpc a) (hb : AllSpc b)
    (hs : trimSpace s = s) : trimSpace (a ++ s ++ b) = s := by
  rcases trim_parts_of_self s hs with ⟨hL, hR⟩
  cases s with
  | nil =>
    apply trimSpace_allspc
    intro c hc
    simp at hc
    rcases hc with hc | hc
    · exact ha c hc
    · exact hb c hc
  | cons x xs =>
    have hx : ¬ isSpc x := head_nonspc_of_trimL x xs hL
    have h1 : trimSpace (a ++ x :: xs ++ b) = trimL (trimR ((a ++ x :: xs) ++ b)) := rfl
    rw [h1, trimR_append_allspc (a ++ x :: xs) b hb]
    have h2 : trimR (a ++ x :: xs) = a ++ x :: xs := by
      rcases List.eq_nil_or_concat (x :: xs) with hny | ⟨m, z, hz⟩
      · simp at hny
      · rw [List.concat_eq_append] at hz
        have hzn : ¬ isSpc z := by
          intro hzspc
          have h3 : trimR (m ++ [z]) = trimR m :=
            trimR_append_allspc m [z]
              (by intro c hc; simp at hc; subst hc; exact hzspc)
          rw [← hz, hR] at h3
          have hlen := (trimR_pfx m).length_le
          rw [← h3] at hlen
          have hlm : (x :: xs).length = m.length + 1 := by rw [hz]; simp
          omega
        rw [hz, show a ++ (m ++ [z]) = (a ++ m) ++ [z] by simp]
        exact trimR_concat_nonspc (a ++ m) z hzn
    rw [h2, trimL_allspc_append a _ ha, trimL_cons_nonspc x xs hx]

/-! ## The record data model (`internal/ticket/ticket.go`, struct `Ticket`)

Go's `Status` and `Type` are string types with enumerated constants and
no decoding-time validation, so both are modelled as `Str`; `ty` stands
for the Go field `Type` (a Lean keyword), `acceptanceCriteria`,
`externalRef` and `testsPassed` for `AcceptanceCriteria`, `ExternalRef`
and `TestsPassed`. -/

structure Ticket where
  id : Str := []
  status : Str := []
  deps : List Str := []
  links : List Str := []
  created : Str := []
  ty : Str := []
  priority : Int := 0
  assignee : Str := []
  externalRef : Str := []
  parent : Str := []
  testsPassed : Bool := false
  title : Str := []
  description : Str := []
  design : Str := []
  acceptanceCriteria : Str := []
  tests : Str := []
  notes : Str := []
deriving DecidableEq, Repr

def statusOpen : Str := str "open"
def statusInProgress : Str := str "in_progress"
def statusClosed : Str := str "closed"

/-- `CanClose` from ticket.go: closing is blocked exactly when the
`tests` section is non-empty and `tests_passed` is false.  The Go method
returns an error in that case; the model returns `false`. -/
def Ticket.canClose (t : Ticket) : Bool := !(t.tests ≠ [] && !t.testsPassed)

/-! ## Serialization (`Marshal` in ticket.go)

The frontmatter is produced by `yaml.Marshal` (goccy/go-yaml) over the
struct tags.  That library is outside the repository; its behaviour on
this fixed schema is modelled from the struct tags (field order, the
`omitempty` markers) and from the output the tool itself writes (plain
scalars unquoted, the RFC3339 `created` value double-quoted, list fields
as block sequences with unindented `- ` items). -/

/-- One `key: value` frontmatter line. -/
def kvLine (k v : Str) : Str := k ++ ':' :: ' ' :: v

/-- A YAML double-quoted scalar (no escapes needed on the valid domain). -/
def quoteStr (v : Str) : Str := '"' :: v ++ ['"']

/-- A block-sequence field: `key:` followed by one `- item` line each. -/
def listBlock (k : Str) (items : List Str) : List Str :=
  (k ++ [':']) :: items.map (fun i => '-' :: ' ' :: i)

/-- Decimal digits of a natural number. -/
def natDigits (n : Nat) : Str := Nat.toDigits 10 n

/-- Decimal representation of a Go `int`. -/
def intRepr (i : Int) : Str :=
  if i < 0 then '-' :: natDigits i.natAbs else natDigits i.toNat

/-- The frontmatter lines `yaml.Marshal` produces for a ticket, in struct
field order, with `omitempty` fields dropped when empty. -/
def marshalFM (t : Ticket) : List Str :=
  [kvLine (str "id") t.id, kvLine (str "status") t.status]
  ++ (if t.deps = [] then [] else listBlock (str "deps") t.deps)
  ++ (if t.links = [] then [] else listBlock (str "links") t.links)
  ++ [kvLine (str "created") (quoteStr t.created),
      kvLine (str "type") t.ty,
      kvLine (str "priority") (intRepr t.priority)]
  ++ (if t.assignee = [] then [] else [kvLine (str "assignee") t.assignee])
  ++ (if t.externalRef = [] then [] else [kvLine (str "external-ref") t.externalRef])
  ++ (if t.parent = [] then [] else [kvLine (str "parent") t.parent])
  ++ [kvLine (str "tests_passed") (str (if t.testsPassed then "true" else "false"))]

/-- The body part of `Marshal`: title line, then the optional sections in
fixed order, each non-empty section preceded by a blank line (and its
heading for the named sections) and followed by a newline; empty sections
are skipped entirely.  This follows the sequential `buf.WriteString`
calls of ticket.go lines 138-173. -/
def marshalBody (t : Ticket) : Str :=
  (str "# ") ++ t.title ++ ['\n']
  ++ (if t.description = [] then [] else '\n' :: t.description ++ ['\n'])
  ++ (if t.design = [] then [] else (str "\n## Design\n\n") ++ t.design ++ ['\n'])
  ++ (if t.acceptanceCriteria = [] then []
      else (str "\n## Acceptance Criteria\n\n") ++ t.acceptanceCriteria ++ ['\n'])
  ++ (if t.tests = [] then [] else (str "\n## Tests\n\n") ++ t.tests ++ ['\n'])
  ++ (if t.notes = [] then [] else (str "\n## Notes\n\n") ++ t.notes ++ ['\n'])

/-- `Marshal` from ticket.go: `---`, frontmatter, `---`, body. -/
def Marshal (t : Ticket) : Str :=
  (str "---\n") ++ unlinesNL '\n' (marshalFM t) ++ (str "---\n") ++ marshalBody t

/-! ## Parsing (`Parse`, `splitFrontmatter`, `parseBody` in ticket.go) -/

inductive ParseErr where
  | emptyFile
  | missingDelimiter
  | frontmatter (msg : String)
deriving DecidableEq, Repr

/-- Drop one trailing newline, as `bufio.ScanLines` does not report an
empty final token after a trailing `\n`. -/
def dropLastNL (s : Str) : Str :=
  if s.getLast? = some '\n' then s.dropLast else s

/-- `bufio.ScanLines` strips one trailing carriage return per line. -/
def dropCR (s : Str) : Str :=
  if s.getLast? = some '\r' then s.dropLast else s

/-- The sequence of lines a `bufio.Scanner` yields on the input. -/
def scanLines (s : Str) : List Str :=
  if s = [] then [] else (splitChar '\n' (dropLastNL s)).map dropCR

def dashes : Str := str "---"

/-- The scan loop of `splitFrontmatter`: collect lines until one whose
trimmed form is `---`; that delimiter is consumed, everything after it is
body.  With no closing delimiter all lines are frontmatter. -/
def breakDelim : List Str → List Str × List Str
  | [] => ([], [])
  | l :: ls =>
    if trimSpace l = dashes then ([], ls)
    else
      let (a, b) := breakDelim ls
      (l :: a, b)

/-- `splitFrontmatter` from ticket.go.  The frontmatter is returned as
its list of lines (the Go code joins them with `\n` before handing them
to the YAML decoder; scanner lines contain no `\n`, so the two forms are
interconvertible) and the body as the raw string rebuilt with a `\n`
after every line, exactly as the Go code does. -/
def splitFrontmatter (data : Str) : Except ParseErr (List Str × Str) :=
  match scanLines data with
  | [] => .error .emptyFile
  | first :: rest =>
    if trimSpace first = dashes then
      let (fm, bodyLines) := breakDelim rest
      .ok (fm, unlinesNL '\n' bodyLines)
    else .error .missingDelimiter

/-! ### Frontmatter decoding (model of `yaml.Unmarshal` on the schema)

A line-oriented decoder for the YAML subset in which ticket headers are
written: `key: value` scalar lines, `key:` opening a block sequence of
`- item` lines, flow sequences `[a, b]`, double-quoted scalars.  Unknown
keys are ignored (forward compatibility), missing fields keep their zero
values, and malformed lines, unclosed flow sequences, or scalar/sequence
type mismatches are errors, matching the library's behaviour on the
repository's own test inputs. -/

/-- Which block-sequence key is currently open. -/
inductive LMode where
  | closed
  | deps
  | links
  | other
deriving DecidableEq, Repr

/-- Strip one matching pair of surrounding double quotes. -/
def unquote (v : Str) : Str :=
  match v with
  | x :: rest =>
    if x = '"' ∧ rest.getLast? = some '"' then rest.dropLast else v
  | [] => v

def digitsToNat (s : Str) : Option Nat :=
  if s = [] ∨ ¬ s.all Char.isDigit then none
  else some (s.foldl (fun a c => a * 10 + (c.toNat - 48)) 0)

def strToInt (s : Str) : Option Int :=
  match s with
  | '-' :: rest => (digitsToNat rest).map (fun n => -(n : Int))
  | _ => (digitsToNat s).map (fun n => (n : Int))

/-- Parse a flow sequence body `a, b, c` into its trimmed items. -/
def flowItems (inner : Str) : List Str :=
  ((splitChar ',' inner).map trimSpace).filter (· ≠ [])

/-- Process one `key: value` pair. -/
def setKey (t : Ticket) (k v : Str) : Except String (Ticket × LMode) :=
  if k = str "deps" ∨ k = str "links" then
    if v = [] then
      .ok (if k = str "deps" then {t with deps := []} else {t with links := []},
           if k = str "deps" then .deps else .links)
    else if v.head? = some '[' then
      if v.getLast? = some ']' then
        let items := flowItems (v.drop 1).dropLast
        .ok (if k = str "deps" then {t with deps := items} else {t with links := items},
             .closed)
      else .error "unclosed flow sequence"
    else .error "cannot unmarshal scalar into sequence"
  else if v = [] then
    .ok (t, if k = str "id" ∨ k = str "status" ∨ k = str "created" ∨ k = str "type"
        ∨ k = str "priority" ∨ k = str "assignee" ∨ k = str "external-ref"
        ∨ k = str "parent" ∨ k = str "tests_passed" then .closed else .other)
  else if v.head? = some '[' then
    if v.getLast? = some ']' then .error "cannot unmarshal sequence into scalar"
    else .error "unclosed flow sequence"
  else
    let w := unquote v
    if k = str "id" then .ok ({t with id := w}, .closed)
    else if k = str "status" then .ok ({t with status := w}, .closed)
    else if k = str "created" then .ok ({t with created := w}, .closed)
    else if k = str "type" then .ok ({t with ty := w}, .closed)
    else if k = str "priority" then
      match strToInt w with
      | some n => .ok ({t with priority := n}, .closed)
      | none => .error "cannot unmarshal into int"
    else if k = str "assignee" then .ok ({t with assignee := w}, .closed)
    else if k = str "external-ref" then .ok ({t with externalRef := w}, .closed)
    else if k = str "parent" then .ok ({t with parent := w}, .closed)
    else if k = str "tests_passed" then
      if w = str "true" then .ok ({t with testsPassed := true}, .closed)
      else if w = str "false" then .ok ({t with testsPassed := false}, .closed)
      else .error "cannot unmarshal into bool"
    else .ok (t, .closed)

/-- Process one frontmatter line. -/
def fmStep (t : Ticket) (m : LMode) (line : Str) : Except String (Ticket × LMode) :=
  let tr := trimSpace line
  if tr = [] then .ok (t, m)
  else if (str "- ").isPrefixOf tr then
    let item := trimSpace (tr.drop 2)
    match m with
    | .deps => .ok ({t with deps := t.deps ++ [item]}, .deps)
    | .links => .ok ({t with links := t.links ++ [item]}, .links)
    | .other => .ok (t, .other)
    | .closed => .error "unexpected sequence item"
  else
    let k := trimSpace (tr.takeWhile (· ≠ ':'))
    match tr.dropWhile (· ≠ ':') with
    | ':' :: r => setKey t k (trimSpace r)
    | _ => .error "cannot decode header line"

/-- Run the decoder over all frontmatter lines. -/
def fmRun : List Str → (Ticket × LMode) → Except String (Ticket × LMode)
  | [], st => .ok st
  | l :: ls, st =>
    match fmStep st.1 st.2 l with
    | .error e => .error e
    | .ok st' => fmRun ls st'

/-- `yaml.Unmarshal` of the frontmatter into a fresh ticket. -/
def parseFM (ls : List Str) : Except String Ticket :=
  (fmRun ls ({}, .closed)).map (·.1)

/-! ### Body parsing (`parseBody` in ticket.go) -/

/-- The `currentSection` state variable of `parseBody` (the Go code uses
the strings `""`, `"title"`, `"description"`, `"design"`, `"acceptance"`,
`"tests"`, `"notes"`). -/
inductive Sec where
  | blank
  | title
  | description
  | design
  | acceptance
  | tests
  | notes
deriving DecidableEq, Repr

/-- `flushSection`: trim the accumulated text and store it into the field
selected by the current section. -/
def flushSec (sec : Sec) (acc : Str) (t : Ticket) : Ticket :=
  let content := trimSpace acc
  match sec with
  | .blank => t
  | .title => {t with title := content}
  | .description => {t with description := content}
  | .design => {t with design := content}
  | .acceptance => {t with acceptanceCriteria := content}
  | .tests => {t with tests := content}
  | .notes => {t with notes := content}

/-- Map a lower-cased `## ` heading to its section by substring match,
in the order of the Go switch. -/
def secOfHeader (header : Str) : Sec :=
  if containsStr header (str "design") then .design
  else if containsStr header (str "acceptance") then .acceptance
  else if containsStr header (str "test") then .tests
  else if containsStr header (str "note") then .notes
  else .description

/-- One iteration of the `parseBody` line loop. -/
def bodyStep (st : Sec × Str × Ticket) (line : Str) : Sec × Str × Ticket :=
  let (sec, acc, t) := st
  let tr := trimSpace line
  if (str "# ").isPrefixOf tr ∧ sec = .blank then
    (.title, trimPfx (str "# ") tr, flushSec sec acc t)
  else if (str "## ").isPrefixOf tr then
    (secOfHeader (toLowerStr (trimPfx (str "## ") tr)), [], flushSec sec acc t)
  else if sec = .title ∧ tr = [] then
    (.description, [], flushSec .title acc t)
  else
    (sec, acc ++ line ++ ['\n'], t)

def bodyRun : List Str → (Sec × Str × Ticket) → Sec × Str × Ticket
  | [], st => st
  | l :: ls, st => bodyRun ls (bodyStep st l)

/-- `parseBody`: split the body on `\n` (keeping a final empty field, as
`strings.Split` does), run the line loop, and flush the last section. -/
def parseBody (t : Ticket) (body : Str) : Ticket :=
  let fin := bodyRun (splitChar '\n' body) (.blank, [], t)
  flushSec fin.1 fin.2.1 fin.2.2

/-- `Parse` from ticket.go: split the frontmatter, decode it into a fresh
ticket, then parse the body into the same ticket. -/
def Parse (data : Str) : Except ParseErr Ticket :=
  match splitFrontmatter data with
  | .error e => .error e
  | .ok (fm, body) =>
    match parseFM fm with
    | .error e => .error (.frontmatter e)
    | .ok t => .ok (parseBody t body)

/-! ## Validity of a record

The domain on which the codec round-trips, and on which the modelled
YAML encoder provably emits the field in the form given by `marshalFM`:
plain scalars are non-empty, start with a letter, consist of unreserved
characters and are not YAML keywords; `created` is shaped like an
RFC3339 timestamp (the code always stores `time.Now().UTC().Format(time.RFC3339)`);
section texts carry no heading-like lines and no carriage returns and are
trimmed of surrounding white space, as the parser itself produces them. -/

def plainChar (c : Char) : Bool :=
  c.isAlphanum || c = ' ' || c = '-' || c = '_' || c = '.' || c = '/' || c = '@'

def tsChar (c : Char) : Bool :=
  c.isDigit || c = '-' || c = ':' || c = 'T' || c = 'Z' || c = '+' || c = '.'

def reservedWords : List Str :=
  [str "true", str "false", str "null", str "yes", str "no",
   str "on", str "off", str "y", str "n"]

/-- The first character satisfies `p` (false for the empty string). -/
def headIs (p : Char → Bool) (v : Str) : Bool :=
  match v with
  | x :: _ => p x
  | [] => false

def PlainScalar (v : Str) : Prop :=
  v ≠ [] ∧ (∀ c ∈ v, plainChar c) ∧
  headIs Char.isAlpha v ∧
  trimSpace v = v ∧ toLowerStr v ∉ reservedWords

def CreatedOK (v : Str) : Prop :=
  headIs Char.isDigit v ∧ (∀ c ∈ v, tsChar c)

def TitleOK (v : Str) : Prop :=
  v ≠ [] ∧ '\n' ∉ v ∧ '\r' ∉ v ∧ trimSpace v = v

def SectionOK (s : Str) : Prop :=
  trimSpace s = s ∧ '\r' ∉ s ∧
  ∀ l ∈ splitChar '\n' s, ¬ ((str "## ").isPrefixOf (trimSpace l) = true)

def OptScalar (v : Str) : Prop := v = [] ∨ PlainScalar v

def statusValues : List Str := [statusOpen, statusInProgress, statusClosed]

def typeValues : List Str :=
  [str "bug", str "feature", str "task", str "epic", str "chore"]

/-- A record with valid field values and section text. -/
def Valid (t : Ticket) : Prop :=
  PlainScalar t.id ∧ t.status ∈ statusValues ∧ t.ty ∈ typeValues ∧
  (∀ d ∈ t.deps, PlainScalar d) ∧ (∀ l ∈ t.links, PlainScalar l) ∧
  CreatedOK t.created ∧ 0 ≤ t.priority ∧ t.priority ≤ 4 ∧
  OptScalar t.assignee ∧ OptScalar t.externalRef ∧ OptScalar t.parent ∧
  TitleOK t.title ∧ SectionOK t.description ∧ SectionOK t.design ∧
  SectionOK t.acceptanceCriteria ∧ SectionOK t.tests ∧ SectionOK t.notes

instance : DecidablePred PlainScalar := fun v => by unfold PlainScalar; infer_instance
instance : DecidablePred CreatedOK := fun v => by unfold CreatedOK; infer_instance
instance : DecidablePred TitleOK := fun v => by unfold TitleOK; infer_instance
instance : DecidablePred SectionOK := fun v => by unfold SectionOK; infer_instance
instance : DecidablePred OptScalar := fun v => by unfold OptScalar; infer_instance
instance : DecidablePred Valid := fun t => by unfold Valid; infer_instance

/-! ## Round-trip: line decomposition of `Marshal` -/

/-- The body of a marshalled ticket, as a list of newline-free lines. -/
def bodyLines (t : Ticket) : List Str :=
  [(str "# ") ++ t.title]
  ++ (if t.description = [] then [] else [] :: splitChar '\n' t.description)
  ++ (if t.design = [] then []
      else [[], str "## Design", []] ++ splitChar '\n' t.design)
  ++ (if t.acceptanceCriteria = [] then []
      else [[], str "## Acceptance Criteria", []] ++ splitChar '\n' t.acceptanceCriteria)
  ++ (if t.tests = [] then []
      else [[], str "## Tests", []] ++ splitChar '\n' t.tests)
  ++ (if t.notes = [] then []
      else [[], str "## Notes", []] ++ splitChar '\n' t.notes)

/-- All lines of a marshalled ticket. -/
def marshalLines (t : Ticket) : List Str :=
  dashes :: marshalFM t ++ dashes :: bodyLines t

theorem unlinesNL_nil (c : Char) : unlinesNL c [] = [] := rfl

theorem unlinesNL_cons (c : Char) (l : Str) (ls : List Str) :
    unlinesNL c (l :: ls) = l ++ c :: unlinesNL c ls := by
  simp [unlinesNL]

theorem marshalBody_eq_unlines (t : Ticket) :
    marshalBody t = unlinesNL '\n' (bodyLines t) := by
  unfold marshalBody bodyLines
  by_cases h1 : t.description = [] <;> by_cases h2 : t.design = [] <;>
    by_cases h3 : t.acceptanceCriteria = [] <;> by_cases h4 : t.tests = [] <;>
    by_cases h5 : t.notes = [] <;>
    simp [h1, h2, h3, h4, h5, unlinesNL_append, unlinesNL_cons, unlinesNL_nil,
      unlinesNL_splitChar, str, List.append_assoc]

theorem marshal_eq_unlines (t : Ticket) :
    Marshal t = unlinesNL '\n' (marshalLines t) := by
  unfold Marshal marshalLines
  rw [marshalBody_eq_unlines]
  simp only [unlinesNL_append, unlinesNL_cons, unlinesNL_nil]
  simp [str, dashes, List.append_assoc]

/-! ## Round-trip: the scanner recovers the lines -/

theorem unlinesNL_ne_nil (c : Char) (ls : List Str) (h : ls ≠ []) :
    unlinesNL c ls ≠ [] := by
  rw [unlinesNL_eq_icalate c ls h]
  simp

theorem dropCR_eq_self (l : Str) (h : '\r' ∉ l) : dropCR l = l := by
  unfold dropCR
  rw [if_neg]
  intro hc
  rcases List.eq_nil_or_concat l with rfl | ⟨m, z, hz⟩
  · simp at hc
  · rw [List.concat_eq_append] at hz
    subst hz
    rw [List.getLast?_concat] at hc
    simp at hc
    subst hc
    simp at h

theorem scanLines_unlines (ls : List Str) (hne : ls ≠ [])
    (hnl : ∀ l ∈ ls, '\n' ∉ l) (hcr : ∀ l ∈ ls, '\r' ∉ l) :
    scanLines (unlinesNL '\n' ls) = ls := by
  unfold scanLines
  rw [if_neg (unlinesNL_ne_nil '\n' ls hne)]
  have h1 : dropLastNL (unlinesNL '\n' ls) = icalate '\n' ls := by
    unfold dropLastNL
    rw [unlinesNL_eq_icalate '\n' ls hne, List.getLast?_concat, if_pos rfl,
      List.dropLast_concat]
  rw [h1, splitChar_icalate '\n' ls hne hnl]
  rw [List.map_congr_left (fun l hl => dropCR_eq_self l (hcr l hl))]
  simp

/-! ## Round-trip: the frontmatter/body split -/

theorem trimSpace_dashes : trimSpace dashes = dashes := by decide

/-! ## Round-trip: more trim facts -/

theorem exists_last_nonspc (v : Str) (hne : v ≠ []) (h : trimR v = v) :
    ∃ m z, v = m ++ [z] ∧ ¬ isSpc z := by
  rcases List.eq_nil_or_concat v with rfl | ⟨m, z, hz⟩
  · exact absurd rfl hne
  · rw [List.concat_eq_append] at hz
    refine ⟨m, z, hz, ?_⟩
    intro hzspc
    have h3 : trimR (m ++ [z]) = trimR m :=
      trimR_append_allspc m [z] (by intro c hc; simp at hc; subst hc; exact hzspc)
    rw [← hz, h] at h3
    have hlen := (trimR_pfx m).length_le
    rw [← h3] at hlen
    have hv : v.length = m.length + 1 := by rw [hz]; simp
    omega

theorem trimSpace_eq_self_of_ends (v : Str)
    (hhead : ∃ x r, v = x :: r ∧ ¬ isSpc x)
    (hlast : ∃ m z, v = m ++ [z] ∧ ¬ isSpc z) : trimSpace v = v := by
  obtain ⟨m, z, rfl, hz⟩ := hlast
  have h1 : trimR (m ++ [z]) = m ++ [z] := trimR_concat_nonspc m z hz
  obtain ⟨x, r, hv, hx⟩ := hhead
  show trimL (trimR (m ++ [z])) = m ++ [z]
  rw [h1, hv]
  exact trimL_cons_nonspc x r hx

/-! ## Round-trip: frontmatter line computation -/

theorem takeWhile_no_colon (k r : Str) (hk : ∀ c ∈ k, c ≠ ':') :
    (k ++ ':' :: r).takeWhile (fun c => c ≠ ':') = k := by
  induction k with
  | nil => simp [List.takeWhile]
  | cons x xs ih =>
    have hx := hk x (List.mem_cons_self x xs)
    have hcond : (decide (x ≠ ':')) = true := by simp [hx]
    simp only [List.cons_append, List.takeWhile_cons, hcond, if_true]
    rw [ih (fun c hc => hk c (List.mem_cons_of_mem x hc))]

theorem dropWhile_no_colon (k r : Str) (hk : ∀ c ∈ k, c ≠ ':') :
    (k ++ ':' :: r).dropWhile (fun c => c ≠ ':') = ':' :: r := by
  induction k with
  | nil => simp [List.dropWhile]
  | cons x xs ih =>
    have hx := hk x (List.mem_cons_self x xs)
    have hcond : (decide (x ≠ ':')) = true := by simp [hx]
    simp only [List.cons_append, List.dropWhile_cons, hcond, if_true]
    exact ih (fun c hc => hk c (List.mem_cons_of_mem x hc))

theorem dashSpace_not_pfx (x : Char) (l : Str) (hx : x ≠ '-') :
    (str "- ").isPrefixOf (x :: l) = false := by
  have hb : ('-' == x) = false := beq_eq_false_iff_ne.mpr (fun h => hx h.symm)
  simp [str, List.isPrefixOf, hb]

theorem unquote_of_head_ne (x : Char) (rest : Str) (hx : x ≠ '"') :
    unquote (x :: rest) = x :: rest := by
  simp [unquote, hx]

theorem unquote_quoteStr (w : Str) : unquote (quoteStr w) = w := by
  simp [unquote, quoteStr, List.getLast?_concat, List.dropLast_concat]

/-- A `key: value` line with a colon-free self-trimmed key and a
non-empty self-trimmed value is decoded by `fmStep` as its key/value
pair, in any list mode. -/
theorem fmStep_kv (u : Ticket) (m : LMode) (k v : Str)
    (hkcolon : ∀ c ∈ k, c ≠ ':')
    (hkx : ∃ x r, k = x :: r ∧ ¬ isSpc x ∧ x ≠ '-')
    (hktrim : trimSpace k = k)
    (hvne : v ≠ []) (hvtrim : trimSpace v = v) :
    fmStep u m (kvLine k v) = setKey u k v := by
  obtain ⟨x, r, rfl, hx, hxd⟩ := hkx
  have hvR : trimR v = v := (trim_parts_of_self v hvtrim).2
  obtain ⟨mv, z, hveq, hz⟩ := exists_last_nonspc v hvne hvR
  have hline : trimSpace (kvLine (x :: r) v) = kvLine (x :: r) v := by
    apply trimSpace_eq_self_of_ends
    · exact ⟨x, r ++ ':' :: ' ' :: v, by simp [kvLine], hx⟩
    · refine ⟨(x :: r) ++ ':' :: ' ' :: mv, z, ?_, hz⟩
      simp [kvLine, hveq]
  have hne : kvLine (x :: r) v ≠ [] := by simp [kvLine]
  have hpfx := dashSpace_not_pfx x (r ++ ':' :: ' ' :: v) hxd
  have htake : (kvLine (x :: r) v).takeWhile (fun c => c ≠ ':') = x :: r := by
    have := takeWhile_no_colon (x :: r) (' ' :: v) hkcolon
    simpa [kvLine] using this
  have hdrop : (kvLine (x :: r) v).dropWhile (fun c => c ≠ ':') = ':' :: ' ' :: v := by
    have := dropWhile_no_colon (x :: r) (' ' :: v) hkcolon
    simpa [kvLine] using this
  have hspval : trimSpace (' ' :: v) = v := by
    have := trim_pad [' '] v [] (by intro c hc; simp at hc; subst hc; rfl)
      (by intro c hc; simp at hc) hvtrim
    simpa using this
  have hpfx2 : ¬ ((str "- ").isPrefixOf (kvLine (x :: r) v) = true) := by
    have hkv : kvLine (x :: r) v = x :: (r ++ ':' :: ' ' :: v) := by simp [kvLine]
    rw [hkv, hpfx]
    simp
  unfold fmStep
  simp only [hline]
  rw [if_neg (show ¬ (kvLine (x :: r) v = []) from hne), if_neg hpfx2]
  rw [htake, hktrim, hdrop]
  simp only [hspval]

theorem setKey_id (u : Ticket) (v : Str) (hvne : v ≠ [])
    (hh : headIs Char.isAlpha v = true) :
    setKey u (str "id") v = .ok ({u with id := v}, .closed) := by
  cases v with
  | nil => exact absurd rfl hvne
  | cons x rest =>
    simp only [headIs] at hh
    have hxb : x ≠ '[' := by intro h; subst h; exact absurd hh (by decide)
    have hxq : x ≠ '"' := by intro h; subst h; exact absurd hh (by decide)
    unfold setKey
    rw [if_neg (by decide), if_neg (show ¬(x :: rest = []) by simp),
      if_neg (show ¬((x :: rest).head? = some '[') by simp [hxb]),
      unquote_of_head_ne x rest hxq]
    rfl

theorem setKey_status (u : Ticket) (v : Str) (hvne : v ≠ [])
    (hh : headIs Char.isAlpha v = true) :
    setKey u (str "status") v = .ok ({u with status := v}, .closed) := by
  cases v with
  | nil => exact absurd rfl hvne
  | cons x rest =>
    simp only [headIs] at hh
    have hxb : x ≠ '[' := by intro h; subst h; exact absurd hh (by decide)
    have hxq : x ≠ '"' := by intro h; subst h; exact absurd hh (by decide)
    unfold setKey
    rw [if_neg (by decide), if_neg (show ¬(x :: rest = []) by simp),
      if_neg (show ¬((x :: rest).head? = some '[') by simp [hxb]),
      unquote_of_head_ne x rest hxq]
    rfl

theorem setKey_type (u : Ticket) (v : Str) (hvne : v ≠ [])
    (hh : headIs Char.isAlpha v = true) :
    setKey u (str "type") v = .ok ({u with ty := v}, .closed) := by
  cases v with
  | nil => exact absurd rfl hvne
  | cons x rest =>
    simp only [headIs] at hh
    have hxb : x ≠ '[' := by intro h; subst h; exact absurd hh (by decide)
    have hxq : x ≠ '"' := by intro h; subst h; exact absurd hh (by decide)
    unfold setKey
    rw [if_neg (by decide), if_neg (show ¬(x :: rest = []) by simp),
      if_neg (show ¬((x :: rest).head? = some '[') by simp [hxb]),
      unquote_of_head_ne x rest hxq]
    rfl

theorem setKey_assignee (u : Ticket) (v : Str) (hvne : v ≠ [])
    (hh : headIs Char.isAlpha v = true) :
    setKey u (str "assignee") v = .ok ({u with assignee := v}, .closed) := by
  cases v with
  | nil => exact absurd rfl hvne
  | cons x rest =>
    simp only [headIs] at hh
    have hxb : x ≠ '[' := by intro h; subst h; exact absurd hh (by decide)
    have hxq : x ≠ '"' := by intro h; subst h; exact absurd hh (by decide)
    unfold setKey
    rw [if_neg (by decide), if_neg (show ¬(x :: rest = []) by simp),
      if_neg (show ¬((x :: rest).head? = some '[') by simp [hxb]),
      unquote_of_head_ne x rest hxq]
    rfl

theorem setKey_externalRef (u : Ticket) (v : Str) (hvne : v ≠ [])
    (hh : headIs Char.isAlpha v = true) :
    setKey u (str "external-ref") v = .ok ({u with externalRef := v}, .closed) := by
  cases v with
  | nil => exact absurd rfl hvne
  | cons x rest =>
    simp only [headIs] at hh
    have hxb : x ≠ '[' := by intro h; subst h; exact absurd hh (by decide)
    have hxq : x ≠ '"' := by intro h; subst h; exact absurd hh (by decide)
    unfold setKey
    rw [if_neg (by decide), if_neg (show ¬(x :: rest = []) by simp),
      if_neg (show ¬((x :: rest).head? = some '[') by simp [hxb]),
      unquote_of_head_ne x rest hxq]
    rfl

theorem setKey_parent (u : Ticket) (v : Str) (hvne : v ≠ [])
    (hh : headIs Char.isAlpha v = true) :
    setKey u (str "parent") v = .ok ({u with parent := v}, .closed) := by
  cases v with
  | nil => exact absurd rfl hvne
  | cons x rest =>
    simp only [headIs] at hh
    have hxb : x ≠ '[' := by intro h; subst h; exact absurd hh (by decide)
    have hxq : x ≠ '"' := by intro h; subst h; exact absurd hh (by decide)
    unfold setKey
    rw [if_neg (by decide), if_neg (show ¬(x :: rest = []) by simp),
      if_neg (show ¬((x :: rest).head? = some '[') by simp [hxb]),
      unquote_of_head_ne x rest hxq]
    rfl

theorem setKey_created (u : Ticket) (w : Str) :
    setKey u (str "created") (quoteStr w) = .ok ({u with created := w}, .closed) := by
  unfold setKey
  rw [if_neg (by decide), if_neg (show ¬(quoteStr w = []) by simp [quoteStr]),
    if_neg (show ¬((quoteStr w).head? = some '[') by simp [quoteStr]),
    unquote_quoteStr]
  rfl

theorem setKey_priority (u : Ticket) (p : Int) (h0 : 0 ≤ p) (h4 : p ≤ 4) :
    setKey u (str "priority") (intRepr p) = .ok ({u with priority := p}, .closed) := by
  interval_cases p <;> rfl

theorem setKey_tests_flag (u : Ticket) (b : Bool) :
    setKey u (str "tests_passed") (str (if b then "true" else "false")) =
      .ok ({u with testsPassed := b}, .closed) := by
  cases b <;> rfl

/-! ## Round-trip: chunk-wise processing of the frontmatter -/

/-- Running the decoder over `ls` from state `u` (in any list mode)
succeeds and produces `u'`. -/
def FmChunk (ls : List Str) (u u' : Ticket) : Prop :=
  ∀ m, ∃ m', fmRun ls (u, m) = .ok (u', m')

theorem fmRun_append (a b : List Str) (st : Ticket × LMode) :
    fmRun (a ++ b) st =
      match fmRun a st with
      | .error e => .error e
      | .ok st' => fmRun b st' := by
  induction a generalizing st with
  | nil => simp [fmRun]
  | cons l ls ih =>
    simp only [List.cons_append, fmRun]
    cases fmStep st.1 st.2 l with
    | error e => rfl
    | ok st' => exact ih st'

theorem FmChunk.comp {a b : List Str} {u u' u'' : Ticket}
    (ha : FmChunk a u u') (hb : FmChunk b u' u'') : FmChunk (a ++ b) u u'' := by
  intro m
  obtain ⟨m1, h1⟩ := ha m
  obtain ⟨m2, h2⟩ := hb m1
  refine ⟨m2, ?_⟩
  rw [fmRun_append, h1]
  exact h2

theorem FmChunk.nil (u : Ticket) : FmChunk [] u u := fun m => ⟨m, rfl⟩

theorem FmChunk.single (l : Str) (u u' : Ticket)
    (h : ∀ m, fmStep u m l = .ok (u', .closed)) : FmChunk [l] u u' := by
  intro m
  refine ⟨.closed, ?_⟩
  simp only [fmRun, h m]

theorem fmStep_item (u : Ticket) (m : LMode) (item : Str) (hne : item ≠ [])
    (htrim : trimSpace item = item) :
    fmStep u m ('-' :: ' ' :: item) =
      (match m with
       | .deps => .ok ({u with deps := u.deps ++ [item]}, .deps)
       | .links => .ok ({u with links := u.links ++ [item]}, .links)
       | .other => .ok (u, .other)
       | .closed => .error "unexpected sequence item") := by
  have hvR : trimR item = item := (trim_parts_of_self item htrim).2
  obtain ⟨mv, z, hveq, hz⟩ := exists_last_nonspc item hne hvR
  have hline : trimSpace ('-' :: ' ' :: item) = '-' :: ' ' :: item := by
    apply trimSpace_eq_self_of_ends
    · exact ⟨'-', ' ' :: item, rfl, by decide⟩
    · exact ⟨'-' :: ' ' :: mv, z, by simp [hveq], hz⟩
  have hpfx : (str "- ").isPrefixOf ('-' :: ' ' :: item) = true := by
    simp [str, List.isPrefixOf]
  unfold fmStep
  simp only [hline]
  rw [if_neg (by simp), if_pos hpfx]
  simp only [List.drop_succ_cons, List.drop_zero, htrim]

theorem fmRun_items_deps (items : List Str)
    (hit : ∀ i ∈ items, i ≠ [] ∧ trimSpace i = i) :
    ∀ u : Ticket, fmRun (items.map (fun i => '-' :: ' ' :: i)) (u, .deps) =
      .ok ({u with deps := u.deps ++ items}, .deps) := by
  induction items with
  | nil =>
    intro u
    simp only [List.map_nil, fmRun, List.append_nil]
  | cons i is ih =>
    intro u
    have hi := hit i (List.mem_cons_self i is)
    simp only [List.map_cons, fmRun]
    rw [fmStep_item u .deps i hi.1 hi.2]
    simp only []
    rw [ih (fun x hx => hit x (List.mem_cons_of_mem i hx)) _]
    simp

theorem fmRun_items_links (items : List Str)
    (hit : ∀ i ∈ items, i ≠ [] ∧ trimSpace i = i) :
    ∀ u : Ticket, fmRun (items.map (fun i => '-' :: ' ' :: i)) (u, .links) =
      .ok ({u with links := u.links ++ items}, .links) := by
  induction items with
  | nil =>
    intro u
    simp only [List.map_nil, fmRun, List.append_nil]
  | cons i is ih =>
    intro u
    have hi := hit i (List.mem_cons_self i is)
    simp only [List.map_cons, fmRun]
    rw [fmStep_item u .links i hi.1 hi.2]
    simp only []
    rw [ih (fun x hx => hit x (List.mem_cons_of_mem i hx)) _]
    simp

theorem fmChunk_deps (dv : List Str) (u : Ticket)
    (hd : ∀ d ∈ dv, d ≠ [] ∧ trimSpace d = d) (hu : u.deps = []) :
    FmChunk (if dv = [] then [] else listBlock (str "deps") dv) u
      {u with deps := dv} := by
  by_cases h : dv = []
  · subst h
    rw [if_pos rfl]
    have he : ({u with deps := ([] : List Str)}) = u := by rw [← hu]
    rw [he]
    exact FmChunk.nil u
  · rw [if_neg h]
    intro m
    refine ⟨.deps, ?_⟩
    show fmRun ((str "deps" ++ [':']) :: dv.map (fun i => '-' :: ' ' :: i)) (u, m) = _
    simp only [fmRun]
    have hopen : fmStep u m (str "deps" ++ [':']) = .ok ({u with deps := []}, .deps) := rfl
    rw [hopen]
    simp only []
    rw [fmRun_items_deps dv hd _]
    simp

theorem fmChunk_links (dv : List Str) (u : Ticket)
    (hd : ∀ d ∈ dv, d ≠ [] ∧ trimSpace d = d) (hu : u.links = []) :
    FmChunk (if dv = [] then [] else listBlock (str "links") dv) u
      {u with links := dv} := by
  by_cases h : dv = []
  · subst h
    rw [if_pos rfl]
    have he : ({u with links := ([] : List Str)}) = u := by rw [← hu]
    rw [he]
    exact FmChunk.nil u
  · rw [if_neg h]
    intro m
    refine ⟨.links, ?_⟩
    show fmRun ((str "links" ++ [':']) :: dv.map (fun i => '-' :: ' ' :: i)) (u, m) = _
    simp only [fmRun]
    have hopen : fmStep u m (str "links" ++ [':']) = .ok ({u with links := []}, .links) := rfl
    rw [hopen]
    simp only []
    rw [fmRun_items_links dv hd _]
    simp

theorem fmChunk_kv_id (u : Ticket) (v : Str) (hv : PlainScalar v) :
    FmChunk [kvLine (str "id") v] u {u with id := v} := by
  obtain ⟨hne, _, hh, htrim, _⟩ := hv
  apply FmChunk.single
  intro m
  rw [fmStep_kv u m (str "id") v (by decide)
    ⟨'i', str "d", rfl, by decide, by decide⟩ (by decide) hne htrim]
  exact setKey_id u v hne hh

theorem fmChunk_kv_status (u : Ticket) (v : Str) (hv : PlainScalar v) :
    FmChunk [kvLine (str "status") v] u {u with status := v} := by
  obtain ⟨hne, _, hh, htrim, _⟩ := hv
  apply FmChunk.single
  intro m
  rw [fmStep_kv u m (str "status") v (by decide)
    ⟨'s', str "tatus", rfl, by decide, by decide⟩ (by decide) hne htrim]
  exact setKey_status u v hne hh

theorem fmChunk_kv_type (u : Ticket) (v : Str) (hv : PlainScalar v) :
    FmChunk [kvLine (str "type") v] u {u with ty := v} := by
  obtain ⟨hne, _, hh, htrim, _⟩ := hv
  apply FmChunk.single
  intro m
  rw [fmStep_kv u m (str "type") v (by decide)
    ⟨'t', str "ype", rfl, by decide, by decide⟩ (by decide) hne htrim]
  exact setKey_type u v hne hh

theorem fmChunk_kv_assignee (u : Ticket) (v : Str) (hv : PlainScalar v) :
    FmChunk [kvLine (str "assignee") v] u {u with assignee := v} := by
  obtain ⟨hne, _, hh, htrim, _⟩ := hv
  apply FmChunk.single
  intro m
  rw [fmStep_kv u m (str "assignee") v (by decide)
    ⟨'a', str "ssignee", rfl, by decide, by decide⟩ (by decide) hne htrim]
  exact setKey_assignee u v hne hh

theorem fmChunk_kv_externalRef (u : Ticket) (v : Str) (hv : PlainScalar v) :
    FmChunk [kvLine (str "external-ref") v] u {u with externalRef := v} := by
  obtain ⟨hne, _, hh, htrim, _⟩ := hv
  apply FmChunk.single
  intro m
  rw [fmStep_kv u m (str "external-ref") v (by decide)
    ⟨'e', str "xternal-ref", rfl, by decide, by decide⟩ (by decide) hne htrim]
  exact setKey_externalRef u v hne hh

theorem fmChunk_kv_parent (u : Ticket) (v : Str) (hv : PlainScalar v) :
    FmChunk [kvLine (str "parent") v] u {u with parent := v} := by
  obtain ⟨hne, _, hh, htrim, _⟩ := hv
  apply FmChunk.single
  intro m
  rw [fmStep_kv u m (str "parent") v (by decide)
    ⟨'p', str "arent", rfl, by decide, by decide⟩ (by decide) hne htrim]
  exact setKey_parent u v hne hh

theorem fmChunk_kv_created (u : Ticket) (w : Str) :
    FmChunk [kvLine (str "created") (quoteStr w)] u {u with created := w} := by
  apply FmChunk.single
  intro m
  have hvne : quoteStr w ≠ [] := by simp [quoteStr]
  have hvtrim : trimSpace (quoteStr w) = quoteStr w := by
    apply trimSpace_eq_self_of_ends
    · exact ⟨'"', w ++ ['"'], rfl, by decide⟩
    · exact ⟨'"' :: w, '"', by simp [quoteStr], by decide⟩
  rw [fmStep_kv u m (str "created") _ (by decide)
    ⟨'c', str "reated", rfl, by decide, by decide⟩ (by decide) hvne hvtrim]
  exact setKey_created u w

theorem fmChunk_kv_priority (u : Ticket) (p : Int) (h0 : 0 ≤ p) (h4 : p ≤ 4) :
    FmChunk [kvLine (str "priority") (intRepr p)] u {u with priority := p} := by
  apply FmChunk.single
  intro m
  have hvne : intRepr p ≠ [] := by interval_cases p <;> decide
  have hvtrim : trimSpace (intRepr p) = intRepr p := by interval_cases p <;> decide
  rw [fmStep_kv u m (str "priority") _ (by decide)
    ⟨'p', str "riority", rfl, by decide, by decide⟩ (by decide) hvne hvtrim]
  exact setKey_priority u p h0 h4

theorem fmChunk_kv_testsPassed (u : Ticket) (b : Bool) :
    FmChunk [kvLine (str "tests_passed") (str (if b then "true" else "false"))] u
      {u with testsPassed := b} := by
  apply FmChunk.single
  intro m
  have hvne : str (if b then "true" else "false") ≠ [] := by cases b <;> decide
  have hvtrim : trimSpace (str (if b then "true" else "false")) =
      str (if b then "true" else "false") := by cases b <;> decide
  rw [fmStep_kv u m (str "tests_passed") _ (by decide)
    ⟨'t', str "ests_passed", rfl, by decide, by decide⟩ (by decide) hvne hvtrim]
  exact setKey_tests_flag u b

theorem fmChunk_opt_assignee (vv : Str) (u : Ticket) (h : OptScalar vv)
    (hu : u.assignee = []) :
    FmChunk (if vv = [] then [] else [kvLine (str "assignee") vv]) u
      {u with assignee := vv} := by
  by_cases hv : vv = []
  · subst hv
    rw [if_pos rfl]
    have he : ({u with assignee := ([] : Str)}) = u := by rw [← hu]
    rw [he]
    exact FmChunk.nil u
  · rw [if_neg hv]
    rcases h with h | h
    · exact absurd h hv
    · exact fmChunk_kv_assignee u vv h

theorem fmChunk_opt_externalRef (vv : Str) (u : Ticket) (h : OptScalar vv)
    (hu : u.externalRef = []) :
    FmChunk (if vv = [] then [] else [kvLine (str "external-ref") vv]) u
      {u with externalRef := vv} := by
  by_cases hv : vv = []
  · subst hv
    rw [if_pos rfl]
    have he : ({u with externalRef := ([] : Str)}) = u := by rw [← hu]
    rw [he]
    exact FmChunk.nil u
  · rw [if_neg hv]
    rcases h with h | h
    · exact absurd h hv
    · exact fmChunk_kv_externalRef u vv h

theorem fmChunk_opt_parent (vv : Str) (u : Ticket) (h : OptScalar vv)
    (hu : u.parent = []) :
    FmChunk (if vv = [] then [] else [kvLine (str "parent") vv]) u
      {u with parent := vv} := by
  by_cases hv : vv = []
  · subst hv
    rw [if_pos rfl]
    have he : ({u with parent := ([] : Str)}) = u := by rw [← hu]
    rw [he]
    exact FmChunk.nil u
  · rw [if_neg hv]
    rcases h with h | h
    · exact absurd h hv
    · exact fmChunk_kv_parent u vv h

/-- The header part of a ticket: all body fields at their zero values. -/
def fmPart (t : Ticket) : Ticket :=
  { id := t.id, status := t.status, deps := t.deps, links := t.links,
    created := t.created, ty := t.ty, priority := t.priority,
    assignee := t.assignee, externalRef := t.externalRef, parent := t.parent,
    testsPassed := t.testsPassed }

theorem plainScalar_status (v : Str) (h : v ∈ statusValues) : PlainScalar v := by
  simp only [statusValues, statusOpen, statusInProgress, statusClosed,
    List.mem_cons, List.mem_singleton, List.not_mem_nil, or_false] at h
  rcases h with rfl | rfl | rfl <;> decide

theorem plainScalar_type (v : Str) (h : v ∈ typeValues) : PlainScalar v := by
  simp only [typeValues, List.mem_cons, List.mem_singleton,
    List.not_mem_nil, or_false] at h
  rcases h with rfl | rfl | rfl | rfl | rfl <;> decide

theorem fmChunk_marshalFM (t : Ticket) (h : Valid t) :
    FmChunk (marshalFM t) {} (fmPart t) := by
  obtain ⟨hid, hst, htyv, hdeps, hlinks, hcr, hp0, hp4, hass, hext, hpar, _⟩ := h
  have hstp : PlainScalar t.status := plainScalar_status t.status hst
  have htyp : PlainScalar t.ty := plainScalar_type t.ty htyv
  have hdeps2 : ∀ d ∈ t.deps, d ≠ [] ∧ trimSpace d = d :=
    fun d hd => ⟨(hdeps d hd).1, (hdeps d hd).2.2.2.1⟩
  have hlinks2 : ∀ d ∈ t.links, d ≠ [] ∧ trimSpace d = d :=
    fun d hd => ⟨(hlinks d hd).1, (hlinks d hd).2.2.2.1⟩
  have c12 : FmChunk [kvLine (str "id") t.id, kvLine (str "status") t.status]
      ({} : Ticket) { id := t.id, status := t.status } :=
    (fmChunk_kv_id {} t.id hid).comp
      (fmChunk_kv_status { id := t.id } t.status hstp)
  have c3 : FmChunk (if t.deps = [] then [] else listBlock (str "deps") t.deps)
      { id := t.id, status := t.status }
      { id := t.id, status := t.status, deps := t.deps } :=
    fmChunk_deps t.deps _ hdeps2 rfl
  have c4 : FmChunk (if t.links = [] then [] else listBlock (str "links") t.links)
      { id := t.id, status := t.status, deps := t.deps }
      { id := t.id, status := t.status, deps := t.deps, links := t.links } :=
    fmChunk_links t.links _ hlinks2 rfl
  have c567 : FmChunk [kvLine (str "created") (quoteStr t.created),
      kvLine (str "type") t.ty, kvLine (str "priority") (intRepr t.priority)]
      { id := t.id, status := t.status, deps := t.deps, links := t.links }
      { id := t.id, status := t.status, deps := t.deps, links := t.links,
        created := t.created, ty := t.ty, priority := t.priority } :=
    ((fmChunk_kv_created _ t.created).comp
      (fmChunk_kv_type _ t.ty htyp)).comp
      (fmChunk_kv_priority _ t.priority hp0 hp4)
  have c8 : FmChunk (if t.assignee = [] then [] else [kvLine (str "assignee") t.assignee])
      { id := t.id, status := t.status, deps := t.deps, links := t.links,
        created := t.created, ty := t.ty, priority := t.priority }
      { id := t.id, status := t.status, deps := t.deps, links := t.links,
        created := t.created, ty := t.ty, priority := t.priority,
        assignee := t.assignee } :=
    fmChunk_opt_assignee t.assignee _ hass rfl
  have c9 : FmChunk (if t.externalRef = [] then []
        else [kvLine (str "external-ref") t.externalRef])
      { id := t.id, status := t.status, deps := t.deps, links := t.links,
        created := t.created, ty := t.ty, priority := t.priority,
        assignee := t.assignee }
      { id := t.id, status := t.status, deps := t.deps, links := t.links,
        created := t.created, ty := t.ty, priority := t.priority,
        assignee := t.assignee, externalRef := t.externalRef } :=
    fmChunk_opt_externalRef t.externalRef _ hext rfl
  have c10 : FmChunk (if t.parent = [] then [] else [kvLine (str "parent") t.parent])
      { id := t.id, status := t.status, deps := t.deps, links := t.links,
        created := t.created, ty := t.ty, priority := t.priority,
        assignee := t.assignee, externalRef := t.externalRef }
      { id := t.id, status := t.status, deps := t.deps, links := t.links,
        created := t.created, ty := t.ty, priority := t.priority,
        assignee := t.assignee, externalRef := t.externalRef,
        parent := t.parent } :=
    fmChunk_opt_parent t.parent _ hpar rfl
  have c11 : FmChunk [kvLine (str "tests_passed")
        (str (if t.testsPassed then "true" else "false"))]
      { id := t.id, status := t.status, deps := t.deps, links := t.links,
        created := t.created, ty := t.ty, priority := t.priority,
        assignee := t.assignee, externalRef := t.externalRef,
        parent := t.parent }
      (fmPart t) :=
    fmChunk_kv_testsPassed _ t.testsPassed
  unfold marshalFM
  exact ((((((c12.comp c3).comp c4).comp c567).comp c8).comp c9).comp c10).comp c11

theorem parseFM_marshalFM (t : Ticket) (h : Valid t) :
    parseFM (marshalFM t) = .ok (fmPart t) := by
  obtain ⟨m', hm⟩ := fmChunk_marshalFM t h .closed
  unfold parseFM
  rw [hm]
  rfl

/-! ## Round-trip: body processing -/

theorem trimSpace_append_nl (acc : Str) :
    trimSpace (acc ++ ['\n']) = trimSpace acc := by
  show trimL (trimR (acc ++ ['\n'])) = trimL (trimR acc)
  rw [trimR_append_allspc acc ['\n'] (by intro c hc; simp at hc; subst hc; rfl)]

theorem flushSec_append_nl (sec : Sec) (acc : Str) (u : Ticket) :
    flushSec sec (acc ++ ['\n']) u = flushSec sec acc u := by
  cases sec <;> simp [flushSec, trimSpace_append_nl]

theorem bodyRun_append (a b : List Str) (st : Sec × Str × Ticket) :
    bodyRun (a ++ b) st = bodyRun b (bodyRun a st) := by
  induction a generalizing st with
  | nil => rfl
  | cons l ls ih =>
    simp only [List.cons_append, bodyRun]
    exact ih (bodyStep st l)

theorem bodyStep_title (u : Ticket) (T : Str) (hne : T ≠ [])
    (htrim : trimSpace T = T) :
    bodyStep (.blank, [], u) ((str "# ") ++ T) = (.title, T, u) := by
  have hvR : trimR T = T := (trim_parts_of_self T htrim).2
  obtain ⟨mv, z, hveq, hz⟩ := exists_last_nonspc T hne hvR
  have hline : trimSpace ((str "# ") ++ T) = (str "# ") ++ T := by
    apply trimSpace_eq_self_of_ends
    · exact ⟨'#', ' ' :: T, rfl, by decide⟩
    · exact ⟨'#' :: ' ' :: mv, z, by simp [str, hveq], hz⟩
  have hpfx : (str "# ").isPrefixOf ((str "# ") ++ T) = true := by
    simp [str, List.isPrefixOf]
  simp only [bodyStep, hline]
  rw [if_pos (And.intro hpfx (by trivial))]
  simp [trimPfx, hpfx, str, flushSec]

theorem bodyStep_plain (sec : Sec) (acc : Str) (u : Ticket) (line : Str)
    (hsec1 : sec ≠ .blank) (hsec2 : sec ≠ .title)
    (hline : ¬ ((str "## ").isPrefixOf (trimSpace line) = true)) :
    bodyStep (sec, acc, u) line = (sec, acc ++ line ++ ['\n'], u) := by
  simp only [bodyStep]
  rw [if_neg (fun h => hsec1 h.2), if_neg hline, if_neg (fun h => hsec2 h.1)]

theorem bodyRun_plain (ls : List Str) (sec : Sec)
    (hsec1 : sec ≠ .blank) (hsec2 : sec ≠ .title)
    (hls : ∀ l ∈ ls, ¬ ((str "## ").isPrefixOf (trimSpace l) = true)) :
    ∀ acc u, bodyRun ls (sec, acc, u) = (sec, acc ++ unlinesNL '\n' ls, u) := by
  induction ls with
  | nil => intro acc u; simp [bodyRun, unlinesNL]
  | cons l ls ih =>
    intro acc u
    simp only [bodyRun]
    rw [bodyStep_plain sec acc u l hsec1 hsec2 (hls l (List.mem_cons_self l ls))]
    rw [ih (fun x hx => hls x (List.mem_cons_of_mem l hx)) _ _]
    simp [unlinesNL_cons, List.append_assoc]

theorem bodyStep_heading (sec : Sec) (acc : Str) (u : Ticket) (line : Str)
    (hsec : sec ≠ .blank)
    (hpfx : (str "## ").isPrefixOf (trimSpace line) = true) :
    bodyStep (sec, acc, u) line =
      (secOfHeader (toLowerStr (trimPfx (str "## ") (trimSpace line))), [],
        flushSec sec acc u) := by
  simp only [bodyStep]
  rw [if_neg (fun h => hsec h.2), if_pos hpfx]

theorem secOf_design :
    secOfHeader (toLowerStr (trimPfx (str "## ") (trimSpace (str "## Design")))) =
      .design := by decide

theorem secOf_acceptance :
    secOfHeader (toLowerStr (trimPfx (str "## ")
      (trimSpace (str "## Acceptance Criteria")))) = .acceptance := by decide

theorem secOf_tests :
    secOfHeader (toLowerStr (trimPfx (str "## ") (trimSpace (str "## Tests")))) =
      .tests := by decide

theorem secOf_notes :
    secOfHeader (toLowerStr (trimPfx (str "## ") (trimSpace (str "## Notes")))) =
      .notes := by decide

/-- Invariant threaded through the body blocks: the section is past the
pre-title state, flushing the pending accumulator yields `v`, and while
the title is still pending no description has been recorded. -/
def BInv (s : Sec × Str × Ticket) (v : Ticket) : Prop :=
  s.1 ≠ .blank ∧ flushSec s.1 s.2.1 s.2.2 = v ∧ (s.1 = .title → v.description = [])

theorem bodyFinal_acc (sec : Sec) (acc : Str) (u : Ticket)
    (hsec1 : sec ≠ .blank) (hsec2 : sec ≠ .title) :
    flushSec (bodyRun [[]] (sec, acc, u)).1 (bodyRun [[]] (sec, acc, u)).2.1
      (bodyRun [[]] (sec, acc, u)).2.2 = flushSec sec acc u := by
  have hstep : bodyRun [[]] (sec, acc, u) = (sec, acc ++ [] ++ ['\n'], u) := by
    simp only [bodyRun]
    exact bodyStep_plain sec acc u [] hsec1 hsec2 (by decide)
  rw [hstep]
  show flushSec sec (acc ++ [] ++ ['\n']) u = flushSec sec acc u
  simp only [List.append_nil]
  exact flushSec_append_nl sec acc u

theorem bodyFinal (s : Sec × Str × Ticket) (v : Ticket) (h : BInv s v) :
    flushSec (bodyRun [[]] s).1 (bodyRun [[]] s).2.1 (bodyRun [[]] s).2.2 = v := by
  obtain ⟨sec, acc, u⟩ := s
  obtain ⟨h1, h2, h3⟩ := h
  cases sec with
  | blank => exact absurd rfl h1
  | title =>
    have hstep : bodyRun [[]] (Sec.title, acc, u) =
        (Sec.description, [], flushSec Sec.title acc u) := rfl
    rw [hstep]
    show flushSec Sec.description [] (flushSec Sec.title acc u) = v
    rw [h2]
    have hd : v.description = [] := h3 rfl
    show {v with description := trimSpace []} = v
    rw [show trimSpace [] = ([] : Str) from rfl, ← hd]
  | description => rw [bodyFinal_acc _ _ _ (by simp) (by simp)]; exact h2
  | design => rw [bodyFinal_acc _ _ _ (by simp) (by simp)]; exact h2
  | acceptance => rw [bodyFinal_acc _ _ _ (by simp) (by simp)]; exact h2
  | tests => rw [bodyFinal_acc _ _ _ (by simp) (by simp)]; exact h2
  | notes => rw [bodyFinal_acc _ _ _ (by simp) (by simp)]; exact h2

/-- Processing a blank line, a section heading and another blank line
flushes the pending section into `v` and opens the new section. -/
theorem bodyRun_pre_block (heading : Str) (secNew : Sec) (sec : Sec) (acc : Str)
    (u v : Ticket)
    (hsecnew : secOfHeader (toLowerStr (trimPfx (str "## ") (trimSpace heading))) = secNew)
    (hpfx : (str "## ").isPrefixOf (trimSpace heading) = true)
    (hnew1 : secNew ≠ .blank) (hnew2 : secNew ≠ .title)
    (h1 : sec ≠ .blank) (h2 : flushSec sec acc u = v)
    (h3 : sec = .title → v.description = []) :
    bodyRun [[], heading, []] (sec, acc, u) = (secNew, ['\n'], v) := by
  by_cases ht : sec = .title
  · subst ht
    simp only [bodyRun]
    rw [show bodyStep (Sec.title, acc, u) [] =
      (Sec.description, [], flushSec Sec.title acc u) from rfl]
    rw [h2]
    rw [bodyStep_heading Sec.description [] v heading (by simp) hpfx]
    rw [hsecnew]
    have hv : flushSec Sec.description [] v = v := by
      have hd := h3 rfl
      show {v with description := trimSpace []} = v
      rw [show trimSpace [] = ([] : Str) from rfl, ← hd]
    rw [hv]
    rw [bodyStep_plain secNew [] v [] hnew1 hnew2 (by decide)]
    rfl
  · simp only [bodyRun]
    rw [bodyStep_plain sec acc u [] h1 ht (by decide)]
    rw [bodyStep_heading sec (acc ++ [] ++ ['\n']) u heading h1 hpfx]
    rw [hsecnew]
    have hv : flushSec sec (acc ++ [] ++ ['\n']) u = v := by
      rw [show acc ++ [] ++ ['\n'] = acc ++ ['\n'] by simp]
      rw [flushSec_append_nl]
      exact h2
    rw [hv]
    rw [bodyStep_plain secNew [] v [] hnew1 hnew2 (by decide)]
    rfl

/-! ## Round-trip: line inventories -/

theorem mem_ite_nil (c : Prop) [Decidable c] (X : List Str) (l : Str)
    (h : l ∈ (if c then [] else X)) : ¬c ∧ l ∈ X := by
  by_cases hc : c
  · rw [if_pos hc] at h
    simp at h
  · exact ⟨hc, by rwa [if_neg hc] at h⟩

theorem splitChar_subset (c : Char) (s : Str) :
    ∀ l ∈ splitChar c s, ∀ x ∈ l, x ∈ s := by
  induction s with
  | nil => simp [splitChar]
  | cons a as ih =>
    simp only [splitChar]
    split
    · intro l hl x hx
      rcases List.mem_cons.mp hl with rfl | h
      · simp at hx
      · exact List.mem_cons_of_mem a (ih l h x hx)
    · rcases hsp : splitChar c as with _ | ⟨y, ys⟩
      · exact absurd hsp (splitChar_ne_nil c as)
      · intro l hl x hx
        rcases List.mem_cons.mp hl with rfl | h
        · rcases List.mem_cons.mp hx with rfl | h2
          · exact List.mem_cons_self x as
          · exact List.mem_cons_of_mem a (ih y (hsp ▸ List.mem_cons_self y ys) x h2)
        · exact List.mem_cons_of_mem a (ih l (hsp ▸ List.mem_cons_of_mem y h) x hx)

theorem trimSpace_cons_nonspc (x : Char) (xs : Str) (hx : ¬ isSpc x) :
    ∃ r, trimSpace (x :: xs) = x :: r := by
  have hne : trimR (x :: xs) ≠ [] := by
    intro h0
    have : ∀ y ∈ (x :: xs).reverse, isSpc y := by
      have h1 : (x :: xs).reverse.dropWhile isSpc = [] := by
        have : ((x :: xs).reverse.dropWhile isSpc).reverse = [] := h0
        have h2 := congrArg List.reverse this
        simpa using h2
      exact fun y hy => List.dropWhile_eq_nil_iff.mp h1 y hy
    exact hx (this x (by simp))
  obtain ⟨tail, ht⟩ := trimR_pfx (x :: xs)
  rcases htr : trimR (x :: xs) with _ | ⟨y, ys⟩
  · exact absurd htr hne
  · rw [htr] at ht
    have hxy : y = x := by
      have h2 := congrArg List.head? ht
      simpa using h2
    subst hxy
    refine ⟨ys, ?_⟩
    show trimL (trimR (y :: xs)) = y :: ys
    rw [htr]
    exact trimL_cons_nonspc y ys hx

theorem plainChar_no_nl (c : Char) (h : plainChar c = true) : c ≠ '\n' ∧ c ≠ '\r' := by
  constructor <;> intro hc <;> subst hc <;> exact absurd h (by decide)

theorem tsChar_no_nl (c : Char) (h : tsChar c = true) : c ≠ '\n' ∧ c ≠ '\r' := by
  constructor <;> intro hc <;> subst hc <;> exact absurd h (by decide)

/-- Inventory of the frontmatter lines. -/
theorem mem_marshalFM (t : Ticket) (l : Str) (hl : l ∈ marshalFM t) :
    l = kvLine (str "id") t.id ∨ l = kvLine (str "status") t.status ∨
    (l = str "deps" ++ [':'] ∨ ∃ i ∈ t.deps, l = '-' :: ' ' :: i) ∨
    (l = str "links" ++ [':'] ∨ ∃ i ∈ t.links, l = '-' :: ' ' :: i) ∨
    l = kvLine (str "created") (quoteStr t.created) ∨
    l = kvLine (str "type") t.ty ∨
    l = kvLine (str "priority") (intRepr t.priority) ∨
    (t.assignee ≠ [] ∧ l = kvLine (str "assignee") t.assignee) ∨
    (t.externalRef ≠ [] ∧ l = kvLine (str "external-ref") t.externalRef) ∨
    (t.parent ≠ [] ∧ l = kvLine (str "parent") t.parent) ∨
    l = kvLine (str "tests_passed") (str (if t.testsPassed then "true" else "false")) := by
  unfold marshalFM at hl
  rcases List.mem_append.mp hl with h | h
  swap
  · simp only [List.mem_singleton] at h
    exact Or.inr (Or.inr (Or.inr (Or.inr (Or.inr (Or.inr (Or.inr (Or.inr (Or.inr
      (Or.inr h)))))))))
  rcases List.mem_append.mp h with h | h
  swap
  · have h2 : ¬t.parent = [] ∧ l = kvLine (str "parent") t.parent := by
      simpa using h
    exact Or.inr (Or.inr (Or.inr (Or.inr (Or.inr (Or.inr (Or.inr (Or.inr (Or.inr
      (Or.inl h2)))))))))
  rcases List.mem_append.mp h with h | h
  swap
  · have h2 : ¬t.externalRef = [] ∧ l = kvLine (str "external-ref") t.externalRef := by
      simpa using h
    exact Or.inr (Or.inr (Or.inr (Or.inr (Or.inr (Or.inr (Or.inr (Or.inr
      (Or.inl h2))))))))
  rcases List.mem_append.mp h with h | h
  swap
  · have h2 : ¬t.assignee = [] ∧ l = kvLine (str "assignee") t.assignee := by
      simpa using h
    exact Or.inr (Or.inr (Or.inr (Or.inr (Or.inr (Or.inr (Or.inr (Or.inl h2)))))))
  rcases List.mem_append.mp h with h | h
  swap
  · rcases List.mem_cons.mp h with h1 | h
    · exact Or.inr (Or.inr (Or.inr (Or.inr (Or.inl h1))))
    rcases List.mem_cons.mp h with h1 | h
    · exact Or.inr (Or.inr (Or.inr (Or.inr (Or.inr (Or.inl h1)))))
    simp only [List.mem_singleton] at h
    exact Or.inr (Or.inr (Or.inr (Or.inr (Or.inr (Or.inr (Or.inl h))))))
  rcases List.mem_append.mp h with h | h
  swap
  · have h2 := (mem_ite_nil _ _ _ h).2
    unfold listBlock at h2
    rcases List.mem_cons.mp h2 with h1 | h3
    · exact Or.inr (Or.inr (Or.inr (Or.inl (Or.inl h1))))
    · obtain ⟨i, hi, h4⟩ := List.mem_map.mp h3
      exact Or.inr (Or.inr (Or.inr (Or.inl (Or.inr ⟨i, hi, h4.symm⟩))))
  rcases List.mem_append.mp h with h | h
  swap
  · have h2 := (mem_ite_nil _ _ _ h).2
    unfold listBlock at h2
    rcases List.mem_cons.mp h2 with h1 | h3
    · exact Or.inr (Or.inr (Or.inl (Or.inl h1)))
    · obtain ⟨i, hi, h4⟩ := List.mem_map.mp h3
      exact Or.inr (Or.inr (Or.inl (Or.inr ⟨i, hi, h4.symm⟩)))
  · rcases List.mem_cons.mp h with h1 | h
    · exact Or.inl h1
    simp only [List.mem_singleton] at h
    exact Or.inr (Or.inl h)

/-- Inventory of the body lines. -/
theorem mem_bodyLines (t : Ticket) (l : Str) (hl : l ∈ bodyLines t) :
    l = (str "# ") ++ t.title ∨ l = [] ∨
    l ∈ splitChar '\n' t.description ∨ l ∈ splitChar '\n' t.design ∨
    l ∈ splitChar '\n' t.acceptanceCriteria ∨ l ∈ splitChar '\n' t.tests ∨
    l ∈ splitChar '\n' t.notes ∨
    l = str "## Design" ∨ l = str "## Acceptance Criteria" ∨
    l = str "## Tests" ∨ l = str "## Notes" := by
  unfold bodyLines at hl
  rcases List.mem_append.mp hl with h | h
  swap
  · have h2 := (mem_ite_nil _ _ _ h).2
    rcases List.mem_cons.mp h2 with h1 | h3
    · exact Or.inr (Or.inl h1)
    rcases List.mem_cons.mp h3 with h1 | h4
    · exact Or.inr (Or.inr (Or.inr (Or.inr (Or.inr (Or.inr (Or.inr (Or.inr (Or.inr
        (Or.inr h1)))))))))
    rcases List.mem_cons.mp h4 with h1 | h5
    · exact Or.inr (Or.inl h1)
    · exact Or.inr (Or.inr (Or.inr (Or.inr (Or.inr (Or.inr (Or.inl h5))))))
  rcases List.mem_append.mp h with h | h
  swap
  · have h2 := (mem_ite_nil _ _ _ h).2
    rcases List.mem_cons.mp h2 with h1 | h3
    · exact Or.inr (Or.inl h1)
    rcases List.mem_cons.mp h3 with h1 | h4
    · exact Or.inr (Or.inr (Or.inr (Or.inr (Or.inr (Or.inr (Or.inr (Or.inr (Or.inr
        (Or.inl h1)))))))))
    rcases List.mem_cons.mp h4 with h1 | h5
    · exact Or.inr (Or.inl h1)
    · exact Or.inr (Or.inr (Or.inr (Or.inr (Or.inr (Or.inl h5)))))
  rcases List.mem_append.mp h with h | h
  swap
  · have h2 := (mem_ite_nil _ _ _ h).2
    rcases List.mem_cons.mp h2 with h1 | h3
    · exact Or.inr (Or.inl h1)
    rcases List.mem_cons.mp h3 with h1 | h4
    · exact Or.inr (Or.inr (Or.inr (Or.inr (Or.inr (Or.inr (Or.inr (Or.inr
        (Or.inl h1))))))))
    rcases List.mem_cons.mp h4 with h1 | h5
    · exact Or.inr (Or.inl h1)
    · exact Or.inr (Or.inr (Or.inr (Or.inr (Or.inl h5))))
  rcases List.mem_append.mp h with h | h
  swap
  · have h2 := (mem_ite_nil _ _ _ h).2
    rcases List.mem_cons.mp h2 with h1 | h3
    · exact Or.inr (Or.inl h1)
    rcases List.mem_cons.mp h3 with h1 | h4
    · exact Or.inr (Or.inr (Or.inr (Or.inr (Or.inr (Or.inr (Or.inr (Or.inl h1)))))))
    rcases List.mem_cons.mp h4 with h1 | h5
    · exact Or.inr (Or.inl h1)
    · exact Or.inr (Or.inr (Or.inr (Or.inl h5)))
  rcases List.mem_append.mp h with h | h
  swap
  · have h2 := (mem_ite_nil _ _ _ h).2
    rcases List.mem_cons.mp h2 with h1 | h3
    · exact Or.inr (Or.inl h1)
    · exact Or.inr (Or.inr (Or.inl h3))
  · simp only [List.mem_singleton] at h
    exact Or.inl h

theorem plainScalar_chars (v : Str) (h : PlainScalar v) : '\n' ∉ v ∧ '\r' ∉ v :=
  ⟨fun hm => (plainChar_no_nl '\n' (h.2.1 '\n' hm)).1 rfl,
   fun hm => (plainChar_no_nl '\r' (h.2.1 '\r' hm)).2 rfl⟩

theorem createdOK_chars (v : Str) (h : CreatedOK v) : '\n' ∉ v ∧ '\r' ∉ v :=
  ⟨fun hm => (tsChar_no_nl '\n' (h.2 '\n' hm)).1 rfl,
   fun hm => (tsChar_no_nl '\r' (h.2 '\r' hm)).2 rfl⟩

theorem kvLine_chars (k v : Str) (hk : '\n' ∉ k ∧ '\r' ∉ k)
    (hv : '\n' ∉ v ∧ '\r' ∉ v) : '\n' ∉ kvLine k v ∧ '\r' ∉ kvLine k v := by
  unfold kvLine
  constructor
  · intro hm
    rcases List.mem_append.mp hm with h | h
    · exact hk.1 h
    rcases List.mem_cons.mp h with h | h
    · exact absurd h (by decide)
    rcases List.mem_cons.mp h with h | h
    · exact absurd h (by decide)
    · exact hv.1 h
  · intro hm
    rcases List.mem_append.mp hm with h | h
    · exact hk.2 h
    rcases List.mem_cons.mp h with h | h
    · exact absurd h (by decide)
    rcases List.mem_cons.mp h with h | h
    · exact absurd h (by decide)
    · exact hv.2 h

theorem quoteStr_chars (w : Str) (hw : '\n' ∉ w ∧ '\r' ∉ w) :
    '\n' ∉ quoteStr w ∧ '\r' ∉ quoteStr w := by
  unfold quoteStr
  constructor
  · intro hm
    rcases List.mem_cons.mp hm with h | h
    · exact absurd h (by decide)
    rcases List.mem_append.mp h with h | h
    · exact hw.1 h
    · simp at h
  · intro hm
    rcases List.mem_cons.mp hm with h | h
    · exact absurd h (by decide)
    rcases List.mem_append.mp h with h | h
    · exact hw.2 h
    · simp at h

theorem intRepr_chars (p : Int) (h0 : 0 ≤ p) (h4 : p ≤ 4) :
    '\n' ∉ intRepr p ∧ '\r' ∉ intRepr p := by
  interval_cases p <;> exact ⟨by decide, by decide⟩

theorem kv_not_dashes (x : Char) (rest : Str) (hx : ¬ isSpc x) (hxd : x ≠ '-') :
    trimSpace (x :: rest) ≠ dashes := by
  obtain ⟨r, hr⟩ := trimSpace_cons_nonspc x rest hx
  rw [hr]
  intro hd
  have h2 := congrArg List.head? hd
  simp only [List.head?_cons, dashes, str] at h2
  exact hxd (by simpa using h2)

theorem item_line_facts (i : Str) (hp : PlainScalar i) :
    ('\n' ∉ '-' :: ' ' :: i ∧ '\r' ∉ '-' :: ' ' :: i) ∧
    trimSpace ('-' :: ' ' :: i) ≠ dashes := by
  have hch := plainScalar_chars i hp
  constructor
  · constructor
    · intro hm
      rcases List.mem_cons.mp hm with h | hm2
      · exact absurd h (by decide)
      rcases List.mem_cons.mp hm2 with h | hm3
      · exact absurd h (by decide)
      · exact hch.1 hm3
    · intro hm
      rcases List.mem_cons.mp hm with h | hm2
      · exact absurd h (by decide)
      rcases List.mem_cons.mp hm2 with h | hm3
      · exact absurd h (by decide)
      · exact hch.2 hm3
  · have hvR : trimR i = i := (trim_parts_of_self i hp.2.2.2.1).2
    obtain ⟨mv, z, hveq, hz⟩ := exists_last_nonspc i hp.1 hvR
    have hline : trimSpace ('-' :: ' ' :: i) = '-' :: ' ' :: i := by
      apply trimSpace_eq_self_of_ends
      · exact ⟨'-', ' ' :: i, rfl, by decide⟩
      · exact ⟨'-' :: ' ' :: mv, z, by simp [hveq], hz⟩
    rw [hline]
    intro hd
    have h2 := congrArg (fun s => s.tail.head?) hd
    simp [dashes, str] at h2

/-- Every frontmatter line of a valid ticket is newline-free and does not
trim to the `---` delimiter. -/
theorem marshalFM_lines_facts (t : Ticket) (h : Valid t) :
    ∀ l ∈ marshalFM t, ('\n' ∉ l ∧ '\r' ∉ l) ∧ trimSpace l ≠ dashes := by
  obtain ⟨hid, hst, hty, hdeps, hlinks, hcr, hp0, hp4, hass, hext, hpar, _⟩ := h
  have hstp := plainScalar_status t.status hst
  have htyp := plainScalar_type t.ty hty
  intro l hl
  rcases mem_marshalFM t l hl with h1|h1|h1|h1|h1|h1|h1|h1|h1|h1|h1
  · subst h1
    refine ⟨kvLine_chars _ _ (by decide) (plainScalar_chars t.id hid), ?_⟩
    show trimSpace ('i' :: (str "d" ++ ':' :: ' ' :: t.id)) ≠ dashes
    exact kv_not_dashes 'i' _ (by decide) (by decide)
  · subst h1
    refine ⟨kvLine_chars _ _ (by decide) (plainScalar_chars t.status hstp), ?_⟩
    show trimSpace ('s' :: (str "tatus" ++ ':' :: ' ' :: t.status)) ≠ dashes
    exact kv_not_dashes 's' _ (by decide) (by decide)
  · rcases h1 with h1 | ⟨i, hi, h1⟩
    · subst h1
      exact ⟨⟨by decide, by decide⟩, by decide⟩
    · subst h1
      exact item_line_facts i (hdeps i hi)
  · rcases h1 with h1 | ⟨i, hi, h1⟩
    · subst h1
      exact ⟨⟨by decide, by decide⟩, by decide⟩
    · subst h1
      exact item_line_facts i (hlinks i hi)
  · subst h1
    refine ⟨kvLine_chars _ _ (by decide)
      (quoteStr_chars t.created (createdOK_chars t.created hcr)), ?_⟩
    show trimSpace ('c' :: (str "reated" ++ ':' :: ' ' :: quoteStr t.created)) ≠ dashes
    exact kv_not_dashes 'c' _ (by decide) (by decide)
  · subst h1
    refine ⟨kvLine_chars _ _ (by decide) (plainScalar_chars t.ty htyp), ?_⟩
    show trimSpace ('t' :: (str "ype" ++ ':' :: ' ' :: t.ty)) ≠ dashes
    exact kv_not_dashes 't' _ (by decide) (by decide)
  · subst h1
    refine ⟨kvLine_chars _ _ (by decide) (intRepr_chars t.priority hp0 hp4), ?_⟩
    show trimSpace ('p' :: (str "riority" ++ ':' :: ' ' :: intRepr t.priority)) ≠ dashes
    exact kv_not_dashes 'p' _ (by decide) (by decide)
  · obtain ⟨hne, h1⟩ := h1
    subst h1
    have hps := hass.resolve_left hne
    refine ⟨kvLine_chars _ _ (by decide) (plainScalar_chars t.assignee hps), ?_⟩
    show trimSpace ('a' :: (str "ssignee" ++ ':' :: ' ' :: t.assignee)) ≠ dashes
    exact kv_not_dashes 'a' _ (by decide) (by decide)
  · obtain ⟨hne, h1⟩ := h1
    subst h1
    have hps := hext.resolve_left hne
    refine ⟨kvLine_chars _ _ (by decide) (plainScalar_chars t.externalRef hps), ?_⟩
    show trimSpace ('e' :: (str "xternal-ref" ++ ':' :: ' ' :: t.externalRef)) ≠ dashes
    exact kv_not_dashes 'e' _ (by decide) (by decide)
  · obtain ⟨hne, h1⟩ := h1
    subst h1
    have hps := hpar.resolve_left hne
    refine ⟨kvLine_chars _ _ (by decide) (plainScalar_chars t.parent hps), ?_⟩
    show trimSpace ('p' :: (str "arent" ++ ':' :: ' ' :: t.parent)) ≠ dashes
    exact kv_not_dashes 'p' _ (by decide) (by decide)
  · subst h1
    cases htp : t.testsPassed <;> exact ⟨⟨by decide, by decide⟩, by decide⟩

theorem sectionLine_ok (S l : Str) (hcr : '\r' ∉ S) (hl : l ∈ splitChar '\n' S) :
    '\n' ∉ l ∧ '\r' ∉ l :=
  ⟨splitChar_not_mem '\n' S l hl,
   fun hm => hcr (splitChar_subset '\n' S l hl '\r' hm)⟩

/-- Every body line of a valid ticket is newline-free. -/
theorem bodyLines_facts (t : Ticket) (h : Valid t) :
    ∀ l ∈ bodyLines t, '\n' ∉ l ∧ '\r' ∉ l := by
  obtain ⟨_, _, _, _, _, _, _, _, _, _, _, hti, hde, hdg, hac, hte, hno⟩ := h
  intro l hl
  rcases mem_bodyLines t l hl with h1|h1|h1|h1|h1|h1|h1|h1|h1|h1|h1
  · subst h1
    constructor
    · intro hm
      rcases List.mem_append.mp hm with h2 | h2
      · exact absurd h2 (by decide)
      · exact hti.2.1 h2
    · intro hm
      rcases List.mem_append.mp hm with h2 | h2
      · exact absurd h2 (by decide)
      · exact hti.2.2.1 h2
  · subst h1
    exact ⟨by simp, by simp⟩
  · exact sectionLine_ok t.description l hde.2.1 h1
  · exact sectionLine_ok t.design l hdg.2.1 h1
  · exact sectionLine_ok t.acceptanceCriteria l hac.2.1 h1
  · exact sectionLine_ok t.tests l hte.2.1 h1
  · exact sectionLine_ok t.notes l hno.2.1 h1
  · subst h1
    exact ⟨by decide, by decide⟩
  · subst h1
    exact ⟨by decide, by decide⟩
  · subst h1
    exact ⟨by decide, by decide⟩
  · subst h1
    exact ⟨by decide, by decide⟩

theorem allSpc_nl : AllSpc ['\n'] := by
  intro c hc
  simp at hc
  subst hc
  rfl

theorem bodyBlock_design (S : Str) (s : Sec × Str × Ticket) (v : Ticket)
    (hInv : BInv s v) (hok : SectionOK S) (hempty : S = [] → v.design = []) :
    BInv (bodyRun (if S = [] then []
        else [[], str "## Design", []] ++ splitChar '\n' S) s)
      {v with design := S} := by
  obtain ⟨sec, acc, u⟩ := s
  obtain ⟨h1, h2, h3⟩ := hInv
  by_cases hS : S = []
  · subst hS
    rw [if_pos rfl]
    have he : ({v with design := ([] : Str)}) = v := by rw [← hempty rfl]
    rw [he]
    exact ⟨h1, h2, h3⟩
  · rw [if_neg hS, bodyRun_append]
    rw [bodyRun_pre_block (str "## Design") .design sec acc u v secOf_design
      (by decide) (by simp) (by simp) h1 h2 h3]
    rw [bodyRun_plain (splitChar '\n' S) .design (by simp) (by simp) hok.2.2 ['\n'] v]
    refine ⟨by simp, ?_, by simp⟩
    show flushSec .design (['\n'] ++ unlinesNL '\n' (splitChar '\n' S)) v = _
    rw [unlinesNL_splitChar]
    show {v with design := trimSpace (['\n'] ++ (S ++ ['\n']))} = {v with design := S}
    rw [show (['\n'] ++ (S ++ ['\n'])) = ['\n'] ++ S ++ ['\n'] by simp]
    rw [trim_pad ['\n'] S ['\n'] allSpc_nl allSpc_nl hok.1]

theorem bodyBlock_acceptance (S : Str) (s : Sec × Str × Ticket) (v : Ticket)
    (hInv : BInv s v) (hok : SectionOK S)
    (hempty : S = [] → v.acceptanceCriteria = []) :
    BInv (bodyRun (if S = [] then []
        else [[], str "## Acceptance Criteria", []] ++ splitChar '\n' S) s)
      {v with acceptanceCriteria := S} := by
  obtain ⟨sec, acc, u⟩ := s
  obtain ⟨h1, h2, h3⟩ := hInv
  by_cases hS : S = []
  · subst hS
    rw [if_pos rfl]
    have he : ({v with acceptanceCriteria := ([] : Str)}) = v := by rw [← hempty rfl]
    rw [he]
    exact ⟨h1, h2, h3⟩
  · rw [if_neg hS, bodyRun_append]
    rw [bodyRun_pre_block (str "## Acceptance Criteria") .acceptance sec acc u v
      secOf_acceptance (by decide) (by simp) (by simp) h1 h2 h3]
    rw [bodyRun_plain (splitChar '\n' S) .acceptance (by simp) (by simp) hok.2.2 ['\n'] v]
    refine ⟨by simp, ?_, by simp⟩
    show flushSec .acceptance (['\n'] ++ unlinesNL '\n' (splitChar '\n' S)) v = _
    rw [unlinesNL_splitChar]
    show {v with acceptanceCriteria := trimSpace (['\n'] ++ (S ++ ['\n']))} =
      {v with acceptanceCriteria := S}
    rw [show (['\n'] ++ (S ++ ['\n'])) = ['\n'] ++ S ++ ['\n'] by simp]
    rw [trim_pad ['\n'] S ['\n'] allSpc_nl allSpc_nl hok.1]

theorem bodyBlock_tests (S : Str) (s : Sec × Str × Ticket) (v : Ticket)
    (hInv : BInv s v) (hok : SectionOK S) (hempty : S = [] → v.tests = []) :
    BInv (bodyRun (if S = [] then []
        else [[], str "## Tests", []] ++ splitChar '\n' S) s)
      {v with tests := S} := by
  obtain ⟨sec, acc, u⟩ := s
  obtain ⟨h1, h2, h3⟩ := hInv
  by_cases hS : S = []
  · subst hS
    rw [if_pos rfl]
    have he : ({v with tests := ([] : Str)}) = v := by rw [← hempty rfl]
    rw [he]
    exact ⟨h1, h2, h3⟩
  · rw [if_neg hS, bodyRun_append]
    rw [bodyRun_pre_block (str "## Tests") .tests sec acc u v secOf_tests
      (by decide) (by simp) (by simp) h1 h2 h3]
    rw [bodyRun_plain (splitChar '\n' S) .tests (by simp) (by simp) hok.2.2 ['\n'] v]
    refine ⟨by simp, ?_, by simp⟩
    show flushSec .tests (['\n'] ++ unlinesNL '\n' (splitChar '\n' S)) v = _
    rw [unlinesNL_splitChar]
    show {v with tests := trimSpace (['\n'] ++ (S ++ ['\n']))} = {v with tests := S}
    rw [show (['\n'] ++ (S ++ ['\n'])) = ['\n'] ++ S ++ ['\n'] by simp]
    rw [trim_pad ['\n'] S ['\n'] allSpc_nl allSpc_nl hok.1]

theorem bodyBlock_notes (S : Str) (s : Sec × Str × Ticket) (v : Ticket)
    (hInv : BInv s v) (hok : SectionOK S) (hempty : S = [] → v.notes = []) :
    BInv (bodyRun (if S = [] then []
        else [[], str "## Notes", []] ++ splitChar '\n' S) s)
      {v with notes := S} := by
  obtain ⟨sec, acc, u⟩ := s
  obtain ⟨h1, h2, h3⟩ := hInv
  by_cases hS : S = []
  · subst hS
    rw [if_pos rfl]
    have he : ({v with notes := ([] : Str)}) = v := by rw [← hempty rfl]
    rw [he]
    exact ⟨h1, h2, h3⟩
  · rw [if_neg hS, bodyRun_append]
    rw [bodyRun_pre_block (str "## Notes") .notes sec acc u v secOf_notes
      (by decide) (by simp) (by simp) h1 h2 h3]
    rw [bodyRun_plain (splitChar '\n' S) .notes (by simp) (by simp) hok.2.2 ['\n'] v]
    refine ⟨by simp, ?_, by simp⟩
    show flushSec .notes (['\n'] ++ unlinesNL '\n' (splitChar '\n' S)) v = _
    rw [unlinesNL_splitChar]
    show {v with notes := trimSpace (['\n'] ++ (S ++ ['\n']))} = {v with notes := S}
    rw [show (['\n'] ++ (S ++ ['\n'])) = ['\n'] ++ S ++ ['\n'] by simp]
    rw [trim_pad ['\n'] S ['\n'] allSpc_nl allSpc_nl hok.1]

theorem bodyBlock_desc (S T : Str) (u : Ticket) (hok : SectionOK S)
    (hT : trimSpace T = T) (hdesc : u.description = []) :
    BInv (bodyRun (if S = [] then [] else [] :: splitChar '\n' S) (.title, T, u))
      {u with title := T, description := S} := by
  by_cases hS : S = []
  · subst hS
    rw [if_pos rfl]
    refine ⟨by simp [bodyRun], ?_, ?_⟩
    · show flushSec .title T u = _
      show {u with title := trimSpace T} = _
      rw [hT, ← hdesc]
    · intro _
      rfl
  · rw [if_neg hS]
    show BInv (bodyRun ([] :: splitChar '\n' S) (Sec.title, T, u)) _
    simp only [bodyRun]
    rw [show bodyStep (Sec.title, T, u) [] =
      (Sec.description, [], flushSec Sec.title T u) from rfl]
    rw [show flushSec Sec.title T u = {u with title := T} from by
      show {u with title := trimSpace T} = _
      rw [hT]]
    rw [bodyRun_plain (splitChar '\n' S) .description (by simp) (by simp)
      hok.2.2 [] _]
    refine ⟨by simp, ?_, by simp⟩
    show flushSec .description ([] ++ unlinesNL '\n' (splitChar '\n' S))
      {u with title := T} = _
    rw [unlinesNL_splitChar]
    show {u with title := T, description := trimSpace ([] ++ (S ++ ['\n']))} = _
    rw [show ([] ++ (S ++ ['\n'])) = [] ++ S ++ ['\n'] by simp]
    rw [trim_pad [] S ['\n'] (by intro c hc; simp at hc) allSpc_nl hok.1]

theorem icalate_concat_nil (c : Char) (ls : List Str) :
    icalate c (ls ++ [[]]) = unlinesNL c ls := by
  induction ls with
  | nil => rfl
  | cons l ls ih =>
    cases ls with
    | nil => simp [icalate, unlinesNL]
    | cons m ms =>
      simp only [List.cons_append, icalate, List.append_eq] at ih ⊢
      rw [ih]
      simp [unlinesNL_cons]

theorem splitChar_unlines (ls : List Str) (hnl : ∀ l ∈ ls, '\n' ∉ l) :
    splitChar '\n' (unlinesNL '\n' ls) = ls ++ [[]] := by
  rw [← icalate_concat_nil]
  apply splitChar_icalate
  · simp
  · intro l hl
    rcases List.mem_append.mp hl with h | h
    · exact hnl l h
    · simp only [List.mem_singleton] at h
      subst h
      simp

theorem breakDelim_split (a b : List Str) (ha : ∀ l ∈ a, trimSpace l ≠ dashes) :
    breakDelim (a ++ dashes :: b) = (a, b) := by
  induction a with
  | nil => simp [breakDelim, trimSpace_dashes]
  | cons l ls ih =>
    have hl := ha l (List.mem_cons_self l ls)
    have ih' := ih (fun x hx => ha x (List.mem_cons_of_mem l hx))
    simp only [List.cons_append, breakDelim, if_neg hl, List.append_eq, ih']

/-! ## Round-trip: assembly -/

theorem marshalLines_scan (t : Ticket) (h : Valid t) :
    scanLines (Marshal t) = marshalLines t := by
  rw [marshal_eq_unlines]
  apply scanLines_unlines
  · simp [marshalLines]
  · intro l hl
    unfold marshalLines at hl
    rcases List.mem_cons.mp hl with rfl | hl2
    · decide
    rcases List.mem_append.mp hl2 with h2 | h2
    · exact ((marshalFM_lines_facts t h l h2).1).1
    rcases List.mem_cons.mp h2 with rfl | h3
    · decide
    · exact (bodyLines_facts t h l h3).1
  · intro l hl
    unfold marshalLines at hl
    rcases List.mem_cons.mp hl with rfl | hl2
    · decide
    rcases List.mem_append.mp hl2 with h2 | h2
    · exact ((marshalFM_lines_facts t h l h2).1).2
    rcases List.mem_cons.mp h2 with rfl | h3
    · decide
    · exact (bodyLines_facts t h l h3).2

theorem splitFrontmatter_marshal (t : Ticket) (h : Valid t) :
    splitFrontmatter (Marshal t) =
      .ok (marshalFM t, unlinesNL '\n' (bodyLines t)) := by
  unfold splitFrontmatter
  rw [marshalLines_scan t h]
  show (if trimSpace dashes = dashes then _ else _) = _
  rw [if_pos trimSpace_dashes]
  simp only [List.append_eq]
  rw [breakDelim_split (marshalFM t) (bodyLines t)
    (fun l hl => (marshalFM_lines_facts t h l hl).2)]

theorem parseBody_marshal (t : Ticket) (h : Valid t) :
    parseBody (fmPart t) (unlinesNL '\n' (bodyLines t)) = t := by
  have hsplit := splitChar_unlines (bodyLines t)
    (fun l hl => (bodyLines_facts t h l hl).1)
  obtain ⟨_, _, _, _, _, _, _, _, _, _, _, hti, hde, hdg, hac, hte, hno⟩ := h
  unfold parseBody
  rw [hsplit]
  unfold bodyLines
  rw [bodyRun_append, bodyRun_append, bodyRun_append, bodyRun_append,
    bodyRun_append, bodyRun_append]
  rw [show bodyRun [(str "# ") ++ t.title] (Sec.blank, [], fmPart t) =
      (.title, t.title, fmPart t) from by
    simp only [bodyRun]
    exact bodyStep_title (fmPart t) t.title hti.1 hti.2.2.2]
  have i2 := bodyBlock_desc t.description t.title (fmPart t) hde hti.2.2.2 rfl
  have i3 := bodyBlock_design t.design _ _ i2 hdg (fun _ => rfl)
  have i4 := bodyBlock_acceptance t.acceptanceCriteria _ _ i3 hac (fun _ => rfl)
  have i5 := bodyBlock_tests t.tests _ _ i4 hte (fun _ => rfl)
  have i6 := bodyBlock_notes t.notes _ _ i5 hno (fun _ => rfl)
  exact bodyFinal _ _ i6

theorem Parse_ok_of (data : Str) (fm : List Str) (body : Str) (t0 : Ticket)
    (h1 : splitFrontmatter data = .ok (fm, body))
    (h2 : parseFM fm = .ok t0) :
    Parse data = .ok (parseBody t0 body) := by
  unfold Parse
  rw [h1]
  show (match parseFM fm with
    | .error e => (.error (.frontmatter e) : Except ParseErr Ticket)
    | .ok t => .ok (parseBody t body)) = _
  rw [h2]

/-! ## Claim C1: round-trip -/

/-- C1: for every Record with valid field values and section text,
parsing the serialization (`Parse (Marshal r)`) yields a record equal to
`r`: every header field (id, status, deps, links, created, type,
priority, assignee, external_ref, parent, tests_passed) and every body
section's trimmed text content (title, description, design,
acceptance_criteria, tests, notes) is reproduced. -/
theorem roundtrip_parse_marshal (t : Ticket) (h : Valid t) :
    Parse (Marshal t) = .ok t := by
  rw [Parse_ok_of (Marshal t) (marshalFM t) (unlinesNL '\n' (bodyLines t)) (fmPart t)
    (splitFrontmatter_marshal t h) (parseFM_marshalFM t h)]
  rw [parseBody_marshal t h]

/-- A concrete fully-populated record used to witness the round-trip. -/
def tkFull : Ticket :=
  { id := str "kt-test"
    status := str "open"
    deps := [str "kt-dep1", str "kt-dep2"]
    links := [str "kt-link1"]
    created := str "2026-01-09T12:00:00Z"
    ty := str "feature"
    priority := 1
    assignee := str "tester"
    externalRef := str "gh/42"
    parent := str "kt-parent"
    testsPassed := false
    title := str "Test Feature"
    description := str "A test description."
    design := str "Design notes here."
    acceptanceCriteria := str "- Criterion 1\n- Criterion 2"
    tests := str "- TestOne\n- TestTwo"
    notes := str "Some notes." }

theorem roundtrip_parse_marshal_witness :
    Valid tkFull ∧ Parse (Marshal tkFull) = .ok tkFull :=
  ⟨by decide, roundtrip_parse_marshal tkFull (by decide)⟩

/-! ## Claim C6: deterministic serialization and fixed layout -/

/-- Modelled from the spec: a named body section is preceded by a blank
line and its heading line, followed by a blank line and the content, and
is omitted entirely, including its heading, when empty. -/
def specSection (heading : Str) (content : Str) : Str :=
  if content = [] then []
  else '\n' :: (heading ++ '\n' :: '\n' :: (content ++ ['\n']))

/-- Modelled from the spec: the description has no heading line. -/
def specDescription (content : Str) : Str :=
  if content = [] then [] else '\n' :: (content ++ ['\n'])

/-- Modelled from the spec: header block, then the title line
`# <title>`, then each optional section in the fixed order description,
design, acceptance_criteria, tests, notes. -/
def specSerialize (t : Ticket) : Str :=
  (str "---\n") ++ unlinesNL '\n' (marshalFM t) ++ (str "---\n")
  ++ (str "# ") ++ t.title ++ ['\n']
  ++ specDescription t.description
  ++ specSection (str "## Design") t.design
  ++ specSection (str "## Acceptance Criteria") t.acceptanceCriteria
  ++ specSection (str "## Tests") t.tests
  ++ specSection (str "## Notes") t.notes

/-- C6: serialization is deterministic — two calls of `Marshal` on the
same Record produce identical output — and the output is the header
block, the title line, and the optional sections in the fixed order
description, design, acceptance_criteria, tests, notes, each preceded by
its heading line except the description, with any empty section omitted
entirely including its heading. -/
theorem marshal_deterministic_layout (t : Ticket) :
    Marshal t = Marshal t ∧ Marshal t = specSerialize t := by
  refine ⟨rfl, ?_⟩
  unfold Marshal marshalBody specSerialize specSection specDescription
  by_cases h1 : t.description = [] <;> by_cases h2 : t.design = [] <;>
    by_cases h3 : t.acceptanceCriteria = [] <;> by_cases h4 : t.tests = [] <;>
    by_cases h5 : t.notes = [] <;>
    simp [h1, h2, h3, h4, h5, str, List.append_assoc]

/-! ## Claim C7: parse failures -/

/-- C7: an input whose first line is not the opening header delimiter
(or which is empty) fails with a format error; an input whose header
cannot be decoded fails with a format error; and a successful parse
always comes from a fully decoded header applied to the body — no
partially populated record is ever returned. -/
theorem parse_failure_behavior (data : Str) :
    (data = [] → Parse data = .error .emptyFile) ∧
    (∀ first rest, scanLines data = first :: rest → trimSpace first ≠ dashes →
      Parse data = .error .missingDelimiter) ∧
    (∀ fm body e, splitFrontmatter data = .ok (fm, body) →
      parseFM fm = .error e → Parse data = .error (.frontmatter e)) ∧
    (∀ t, Parse data = .ok t → ∃ fm body t0, splitFrontmatter data = .ok (fm, body) ∧
      parseFM fm = .ok t0 ∧ t = parseBody t0 body) := by
  refine ⟨?_, ?_, ?_, ?_⟩
  · intro hd
    subst hd
    rfl
  · intro first rest hscan hne
    unfold Parse splitFrontmatter
    rw [hscan]
    show (match (if trimSpace first = dashes then _ else
      (.error .missingDelimiter : Except ParseErr (List Str × Str))) with
      | .error e => (.error e : Except ParseErr Ticket)
      | .ok (fm, body) => _) = _
    rw [if_neg hne]
  · intro fm body e hsf hfm
    unfold Parse
    rw [hsf]
    show (match parseFM fm with
      | .error e => (.error (.frontmatter e) : Except ParseErr Ticket)
      | .ok t => .ok (parseBody t body)) = _
    rw [hfm]
  · intro t ht
    unfold Parse at ht
    rcases hsf : splitFrontmatter data with e | ⟨fm, body⟩
    · rw [hsf] at ht
      simp at ht
    · rw [hsf] at ht
      have ht2 : (match parseFM fm with
          | .error e => (.error (.frontmatter e) : Except ParseErr Ticket)
          | .ok t1 => .ok (parseBody t1 body)) = .ok t := ht
      rcases hfm : parseFM fm with e | t0
      · rw [hfm] at ht2
        have ht3 : (Except.error (ParseErr.frontmatter e) : Except ParseErr Ticket) =
            .ok t := ht2
        exact absurd ht3 (by simp)
      · rw [hfm] at ht2
        have ht3 : (Except.ok (parseBody t0 body) : Except ParseErr Ticket) =
            .ok t := ht2
        simp only [Except.ok.injEq] at ht3
        exact ⟨fm, body, t0, rfl, hfm, ht3.symm⟩

theorem parse_failure_behavior_witness :
    Parse (str "# Just a title") = .error .missingDelimiter :=
  (parse_failure_behavior (str "# Just a title")).2.1
    (str "# Just a title") [] (by decide) (by decide)

/-! ## Claim C8: identifier prefix extraction (`internal/store/id.go`) -/

/-- Split on a character predicate, keeping empty fields. -/
def splitP (p : Char → Bool) : Str → List Str
  | [] => [[]]
  | x :: xs =>
    if p x then [] :: splitP p xs
    else
      match splitP p xs with
      | [] => [[x]]
      | y :: ys => (x :: y) :: ys

/-- The separator predicate of the closure id.go passes to
`strings.FieldsFunc`. -/
def isSep (c : Char) : Bool := c = '-' || c = '_'

/-- `strings.FieldsFunc(s, p)`: the maximal runs of characters on which
`p` is false — splitting at every separator and dropping the empty
fields. -/
def fieldsFunc (p : Char → Bool) (s : Str) : List Str :=
  (splitP p s).filter (fun f => decide (f ≠ []))

/-- `extractPrefix` from id.go (named `extractPfx` here): split on `-`
and `_` with `strings.FieldsFunc` (which drops empty fields); when
exactly one field remains, take the name's first three characters (the
whole name when not longer than three); otherwise concatenate the first
byte of each non-empty field. -/
def extractPfx (name : Str) : Str :=
  if (fieldsFunc isSep name).length = 1 then
    if name.length > 3 then name.take 3 else name
  else
    ((fieldsFunc isSep name).map (fun f => f.take 1)).flatten

/-- Modelled from the spec: separator-containing names map to the first
letter of each separator-delimited segment; separator-free names map to
their first three characters, or the whole name when shorter. -/
def specPfx (name : Str) : Str :=
  if name.any isSep then (splitP isSep name).filterMap List.head?
  else name.take 3

theorem splitP_ne_nil (p : Char → Bool) (s : Str) : splitP p s ≠ [] := by
  induction s with
  | nil => simp [splitP]
  | cons x xs ih =>
    simp only [splitP]
    split
    · simp
    · split
      · simp
      · simp

theorem splitP_no_sep (p : Char → Bool) (s : Str) (h : ∀ c ∈ s, p c = false) :
    splitP p s = [s] := by
  induction s with
  | nil => simp [splitP]
  | cons x xs ih =>
    simp only [splitP]
    rw [if_neg (by simp [h x (List.mem_cons_self x xs)])]
    rw [ih (fun c hc => h c (List.mem_cons_of_mem x hc))]

theorem splitP_sep_len (p : Char → Bool) (s : Str) (h : s.any p = true) :
    2 ≤ (splitP p s).length := by
  induction s with
  | nil => simp at h
  | cons x xs ih =>
    simp only [splitP]
    by_cases hx : p x = true
    · rw [if_pos hx]
      have := splitP_ne_nil p xs
      simp only [List.length_cons]
      cases hs : splitP p xs with
      | nil => exact absurd hs this
      | cons a as => simp
    · rw [if_neg hx]
      have hxs : xs.any p = true := by
        simp only [List.any_cons, hx, Bool.false_or] at h
        exact h
      have h2 := ih hxs
      cases hs : splitP p xs with
      | nil => exact absurd hs (splitP_ne_nil p xs)
      | cons a as =>
        rw [hs] at h2
        simpa using h2

/-- Counterexample to C8 as stated: `strings.FieldsFunc` drops empty
fields, so a name that does contain separators can still leave a single
field and fall into the first-three-characters branch of the whole
name.  `extractPrefix "a-"` is `"a-"` and `extractPrefix "_build"` is
`"_bu"`, where the spec's first-letter-of-each-segment rule gives `"a"`
and `"b"`. -/
theorem extract_prefix_counterexample :
    extractPfx (str "a-") = str "a-" ∧ specPfx (str "a-") = str "a" ∧
    extractPfx (str "a-") ≠ specPfx (str "a-") ∧
    extractPfx (str "_build") = str "_bu" ∧ specPfx (str "_build") = str "b" ∧
    extractPfx (str "_build") ≠ specPfx (str "_build") ∧
    extractPfx (str "foo-bar-baz") = str "fbb" := by
  decide

/-- Amended description of the prefix derivation: segments are the
maximal runs of non-separator characters (empty fields between, before
or after separators are dropped). -/
def specPfxA (name : Str) : Str :=
  if 2 ≤ (fieldsFunc isSep name).length then
    ((fieldsFunc isSep name).map (fun f => f.take 1)).flatten
  else if (fieldsFunc isSep name).length = 1 then
    if 3 < name.length then name.take 3 else name
  else []

/-- C8 (amended): for every name, `extractPrefix` returns the first
letter of each maximal non-separator run when at least two such runs
remain after dropping empty fields; the first three characters of the
whole name (all of it when not longer than three characters) when
exactly one run remains — which covers separator-free names but also
names such as `"a-"` or `"_build"` whose separators delimit a single
non-empty run; and the empty prefix when no run remains. -/
theorem extract_prefix_amended (name : Str) : extractPfx name = specPfxA name := by
  unfold extractPfx specPfxA
  by_cases h1 : (fieldsFunc isSep name).length = 1
  · have h2 : ¬ 2 ≤ (fieldsFunc isSep name).length := by omega
    rw [if_pos h1, if_neg h2, if_pos h1]
  · rw [if_neg h1]
    by_cases h2 : 2 ≤ (fieldsFunc isSep name).length
    · rw [if_pos h2]
    · have h0 : (fieldsFunc isSep name).length = 0 := by omega
      rw [List.length_eq_zero] at h0
      rw [if_neg h2, if_neg h1, h0]
      rfl

/-! ## The record store (`internal/store/store.go`)

The store directory is modelled as an association list from record id
(the file base name) to raw file bytes.  Locking is sequential in this
model: every store operation runs atomically under its lock, which is
the guarantee the per-record file lock provides to a single operation.
The lock-ordering behaviour of multi-record callers is modelled
separately by an event trace (see the link-command model below). -/

def TStore := List (Str × Str)

def lookupFS : TStore → Str → Option Str
  | [], _ => none
  | (i, d) :: rest, id => if i = id then some d else lookupFS rest id

/-- The effect of `Save`'s atomic temp-file-then-rename write. -/
def setFS : TStore → Str → Str → TStore
  | [], id, data => [(id, data)]
  | (i, d) :: rest, id, data =>
    if i = id then (i, data) :: rest else (i, d) :: setFS rest id data

inductive StoreErr where
  | fileNotFound (id : Str)
  | format (e : ParseErr)
  | notFound (q : Str)
  | ambiguous (q : Str) (ids : List Str)
  | alreadyReleased
deriving DecidableEq, Repr

/-- `Store.Get`: shared per-record lock, read, parse.  `os.ReadFile`'s
not-exist error surfaces exactly when the file is absent; a parse
failure is returned as such, not as not-found. -/
def GetModel (fs : TStore) (id : Str) : Except StoreErr Ticket :=
  match lookupFS fs id with
  | none => .error (.fileNotFound id)
  | some data =>
    match Parse data with
    | .error e => .error (.format e)
    | .ok t => .ok t

/-- The glob `*q*.md` over files named `id ++ ".md"`, for a pattern
without glob metacharacters: by suffix cancellation it matches exactly
the ids having `q` as a substring.  Matches come in directory order. -/
def candidates (fs : TStore) (q : Str) : List Str :=
  (fs.map (·.1)).filter (fun id => decide (q <:+: id))

/-- `Store.Resolve`: exact `Get` first; on failure glob for substring
matches under the store lock; 0 matches fails not-found, 1 match
delegates to `Get` on that id, more fail ambiguous with all ids. -/
def ResolveModel (fs : TStore) (q : Str) : Except StoreErr Ticket :=
  match GetModel fs q with
  | .ok t => .ok t
  | .error _ =>
    match candidates fs q with
    | [] => .error (.notFound q)
    | [id] => GetModel fs id
    | ids => .error (.ambiguous q ids)

/-- A `LockedTicket`: the parsed record plus whether the exclusive lock
is still held (`lock != nil`). -/
structure LockedTk where
  ticket : Ticket
  lock : Bool
deriving DecidableEq, Repr

/-- `Store.GetForUpdate`: acquire the exclusive lock, read and parse;
on parse failure release and propagate. -/
def GetForUpdateModel (fs : TStore) (id : Str) : Except StoreErr LockedTk :=
  match GetModel fs id with
  | .error e => .error e
  | .ok t => .ok ⟨t, true⟩

/-- `LockedTicket.Release`: release only when still held; never an
error; the stored bytes are untouched. -/
def ReleaseModel (lt : LockedTk) (fs : TStore) : LockedTk × TStore :=
  (if lt.lock then {lt with lock := false} else lt, fs)

/-- `LockedTicket.SaveAndRelease`: fails `AlreadyReleased` without
writing when the lock is gone; otherwise writes the record and releases. -/
def SaveAndReleaseModel (lt : LockedTk) (fs : TStore) :
    Except StoreErr Unit × LockedTk × TStore :=
  if lt.lock = false then (.error .alreadyReleased, lt, fs)
  else (.ok (), {lt with lock := false}, setFS fs lt.ticket.id (Marshal lt.ticket))

/-- `Store.ResolveForUpdate`: unlocked resolve, then re-read under the
exclusive lock. -/
def ResolveForUpdateModel (fs : TStore) (q : Str) : Except StoreErr LockedTk :=
  match ResolveModel fs q with
  | .error e => .error e
  | .ok t => GetForUpdateModel fs t.id

/-! ## Claim C10: Get error discrimination -/

/-- C10: `get(id)` reports file-not-found exactly when the record file
is absent; when the file exists but fails to parse, the parse failure is
returned rather than not-found. -/
theorem get_error_discrimination (fs : TStore) (id : Str) :
    (GetModel fs id = .error (.fileNotFound id) ↔ lookupFS fs id = none) ∧
    (∀ data e, lookupFS fs id = some data → Parse data = .error e →
      GetModel fs id = .error (.format e)) := by
  constructor
  · constructor
    · intro h
      rcases hl : lookupFS fs id with _ | data
      · rfl
      · unfold GetModel at h
        rw [hl] at h
        have h2 : (match Parse data with
            | .error e => (.error (.format e) : Except StoreErr Ticket)
            | .ok t => .ok t) = .error (.fileNotFound id) := h
        rcases hp : Parse data with e | t
        · rw [hp] at h2
          have h3 : (Except.error (StoreErr.format e) : Except StoreErr Ticket) =
              .error (.fileNotFound id) := h2
          simp at h3
        · rw [hp] at h2
          have h3 : (Except.ok t : Except StoreErr Ticket) =
              .error (.fileNotFound id) := h2
          simp at h3
    · intro h
      unfold GetModel
      rw [h]
  · intro data e hl hp
    unfold GetModel
    rw [hl]
    have : (match Parse data with
        | .error e => (.error (.format e) : Except StoreErr Ticket)
        | .ok t => .ok t) = .error (.format e) := by rw [hp]
    exact this

/-- A record file with valid frontmatter. -/
def rawGood : Str := str "---\nid: kt-a1b2\nstatus: open\ncreated: \"2026-01-09T10:00:00Z\"\ntype: task\npriority: 2\ntests_passed: false\n---\n# Simple task\n"

/-- A record file whose first line is not the frontmatter delimiter. -/
def rawBad : Str := str "# no frontmatter here\n"

def fsMixed : TStore := [(str "kt-a1b2", rawGood), (str "kt-bad", rawBad)]

theorem get_error_discrimination_witness :
    GetModel fsMixed (str "kt-gone") = .error (.fileNotFound (str "kt-gone")) ∧
    GetModel fsMixed (str "kt-bad") = .error (.format .missingDelimiter) := by
  constructor
  · exact (get_error_discrimination fsMixed (str "kt-gone")).1.mpr (by decide)
  · exact (get_error_discrimination fsMixed (str "kt-bad")).2 rawBad
      .missingDelimiter (by decide) (by decide)

/-! ## Claim C4: partial-id resolution -/

/-- C4: `resolve(q)` first attempts an exact `get(q)`; on failure it
searches file names containing `q` as a substring, then: zero matches
fails not-found; exactly one match returns `get` on that id (a fresh
locked read); several matches fail ambiguous, naming every candidate id. -/
theorem resolve_behavior (fs : TStore) (q : Str) :
    (∀ t, GetModel fs q = .ok t → ResolveModel fs q = .ok t) ∧
    (∀ e, GetModel fs q = .error e →
      (candidates fs q = [] → ResolveModel fs q = .error (.notFound q)) ∧
      (∀ i, candidates fs q = [i] → ResolveModel fs q = GetModel fs i) ∧
      (∀ i j rest, candidates fs q = i :: j :: rest →
        ResolveModel fs q = .error (.ambiguous q (i :: j :: rest)))) := by
  constructor
  · intro t h
    unfold ResolveModel
    rw [h]
  · intro e h
    refine ⟨?_, ?_, ?_⟩
    · intro hc
      unfold ResolveModel
      rw [h, hc]
    · intro i hc
      unfold ResolveModel
      rw [h, hc]
    · intro i j rest hc
      unfold ResolveModel
      rw [h, hc]

def fsAmbig : TStore :=
  [(str "kt-abc1", rawGood), (str "kt-abc2", rawGood)]

theorem resolve_behavior_witness :
    ResolveModel fsAmbig (str "abc") =
      .error (.ambiguous (str "abc") [str "kt-abc1", str "kt-abc2"]) ∧
    ResolveModel fsAmbig (str "zzz") = .error (.notFound (str "zzz")) := by
  constructor
  · exact ((resolve_behavior fsAmbig (str "abc")).2
      (.fileNotFound (str "abc")) (by decide)).2.2
      (str "kt-abc1") (str "kt-abc2") [] (by decide)
  · exact ((resolve_behavior fsAmbig (str "zzz")).2
      (.fileNotFound (str "zzz")) (by decide)).1 (by decide)

/-! ## Claim C9: locked-handle release semantics -/

/-- C9: `release` is idempotent and never touches the store; `release`
after a successful `save_and_release` is a harmless no-op; and
`save_and_release` after `release` fails `AlreadyReleased` without
writing anything. -/
theorem locked_handle_release (lt : LockedTk) (fs : TStore) :
    (ReleaseModel (ReleaseModel lt fs).1 (ReleaseModel lt fs).2 =
        ReleaseModel lt fs ∧ (ReleaseModel lt fs).2 = fs) ∧
    (lt.lock = true →
      (SaveAndReleaseModel lt fs).1 = .ok () ∧
      ReleaseModel (SaveAndReleaseModel lt fs).2.1 (SaveAndReleaseModel lt fs).2.2 =
        ((SaveAndReleaseModel lt fs).2.1, (SaveAndReleaseModel lt fs).2.2)) ∧
    SaveAndReleaseModel (ReleaseModel lt fs).1 (ReleaseModel lt fs).2 =
      (.error .alreadyReleased, (ReleaseModel lt fs).1, fs) := by
  obtain ⟨t, lk⟩ := lt
  refine ⟨?_, ?_, ?_⟩
  · cases lk <;> simp [ReleaseModel]
  · intro h
    simp only at h
    subst h
    simp [SaveAndReleaseModel, ReleaseModel]
  · cases lk <;> simp [SaveAndReleaseModel, ReleaseModel]

theorem locked_handle_release_witness :
    (⟨tkFull, true⟩ : LockedTk).lock = true ∧
    (SaveAndReleaseModel ⟨tkFull, true⟩ []).1 = .ok () ∧
    ReleaseModel (SaveAndReleaseModel ⟨tkFull, true⟩ []).2.1
        (SaveAndReleaseModel ⟨tkFull, true⟩ []).2.2 =
      ((SaveAndReleaseModel ⟨tkFull, true⟩ []).2.1,
       (SaveAndReleaseModel ⟨tkFull, true⟩ []).2.2) :=
  ⟨rfl, (locked_handle_release ⟨tkFull, true⟩ []).2.1 rfl⟩

/-! ## Status commands (`internal/cmd/status.go`) -/

inductive CmdErr where
  | store (e : StoreErr)
  | cannotClose (id : Str)
deriving DecidableEq, Repr

/-- `runStatus`: resolve-for-update, set the status verbatim (no
validation of any kind), save and release. -/
def runStatusModel (fs : TStore) (q : Str) (newStatus : Str) :
    Except StoreErr TStore :=
  match ResolveForUpdateModel fs q with
  | .error e => .error e
  | .ok lt =>
    let t2 := {lt.ticket with status := newStatus}
    .ok (setFS fs t2.id (Marshal t2))

structure StatusResult where
  updated : List Str := []
  errors : List (Str × CmdErr) := []
deriving DecidableEq, Repr

/-- One iteration of the `setStatusMultiple` loop: resolve the id, check
`CanClose` when closing with validation, save; record a per-id error
instead of aborting. -/
def statusStep (fs : TStore) (id : Str) (status : Str) (validate : Bool)
    (res : StatusResult) : TStore × StatusResult :=
  match ResolveForUpdateModel fs id with
  | .error e => (fs, {res with errors := res.errors ++ [(id, .store e)]})
  | .ok lt =>
    if validate = true ∧ status = statusClosed ∧ lt.ticket.canClose = false then
      (fs, {res with errors := res.errors ++ [(lt.ticket.id, .cannotClose lt.ticket.id)]})
    else
      let t2 := {lt.ticket with status := status}
      (setFS fs t2.id (Marshal t2), {res with updated := res.updated ++ [t2.id]})

def setStatusGo (fs : TStore) (ids : List Str) (status : Str)
    (validate : Bool) (res : StatusResult) : TStore × StatusResult :=
  match ids with
  | [] => (fs, res)
  | id :: rest =>
    let st := statusStep fs id status validate res
    setStatusGo st.1 rest status validate st.2

/-- `setStatusMultiple` from status.go. -/
def setStatusMultiple (fs : TStore) (ids : List Str) (status : Str)
    (validate : Bool) : TStore × StatusResult :=
  setStatusGo fs ids status validate {}

/-! ## Claim C3: the tests-passed close gate -/

theorem lookupFS_single (id d : Str) : lookupFS [(id, d)] id = some d := by
  unfold lookupFS
  rw [if_pos rfl]

theorem setFS_single (id d d2 : Str) : setFS [(id, d)] id d2 = [(id, d2)] := by
  unfold setFS
  rw [if_pos rfl]

theorem GetModel_of (fs : TStore) (id data : Str) (t : Ticket)
    (h1 : lookupFS fs id = some data) (h2 : Parse data = .ok t) :
    GetModel fs id = .ok t := by
  unfold GetModel
  rw [h1]
  show (match Parse data with
    | .error e => (.error (.format e) : Except StoreErr Ticket)
    | .ok u => .ok u) = _
  rw [h2]

theorem GetModel_single (t : Ticket) (hv : Valid t) :
    GetModel [(t.id, Marshal t)] t.id = .ok t :=
  GetModel_of _ _ _ _ (lookupFS_single t.id (Marshal t))
    (roundtrip_parse_marshal t hv)

theorem Resolve_exact (fs : TStore) (q : Str) (t : Ticket)
    (h : GetModel fs q = .ok t) : ResolveModel fs q = .ok t := by
  unfold ResolveModel
  rw [h]

theorem GetForUpdate_ok (fs : TStore) (id : Str) (t : Ticket)
    (h : GetModel fs id = .ok t) : GetForUpdateModel fs id = .ok ⟨t, true⟩ := by
  unfold GetForUpdateModel
  rw [h]

theorem ResolveForUpdate_of (fs : TStore) (q : Str) (t : Ticket)
    (h1 : ResolveModel fs q = .ok t)
    (h2 : GetForUpdateModel fs t.id = .ok ⟨t, true⟩) :
    ResolveForUpdateModel fs q = .ok ⟨t, true⟩ := by
  unfold ResolveForUpdateModel
  rw [h1]
  exact h2

theorem ResolveForUpdate_single (t : Ticket) (hv : Valid t) :
    ResolveForUpdateModel [(t.id, Marshal t)] t.id = .ok ⟨t, true⟩ :=
  ResolveForUpdate_of _ _ _ (Resolve_exact _ _ _ (GetModel_single t hv))
    (GetForUpdate_ok _ _ _ (GetModel_single t hv))

theorem statusStep_blocked (fs : TStore) (id : Str) (res : StatusResult)
    (t : Ticket) (h : ResolveForUpdateModel fs id = .ok ⟨t, true⟩)
    (hcc : t.canClose = false) :
    statusStep fs id statusClosed true res =
      (fs, {res with errors := res.errors ++ [(t.id, .cannotClose t.id)]}) := by
  unfold statusStep
  rw [h]
  show (if true = true ∧ statusClosed = statusClosed ∧
      (LockedTk.mk t true).ticket.canClose = false then _ else _) = _
  rw [if_pos (And.intro rfl (And.intro rfl hcc))]

theorem statusStep_save (fs : TStore) (id status : Str) (validate : Bool)
    (res : StatusResult) (t : Ticket)
    (h : ResolveForUpdateModel fs id = .ok ⟨t, true⟩)
    (hcond : ¬(validate = true ∧ status = statusClosed ∧ t.canClose = false)) :
    statusStep fs id status validate res =
      (setFS fs t.id (Marshal {t with status := status}),
       {res with updated := res.updated ++ [t.id]}) := by
  unfold statusStep
  rw [h]
  show (if validate = true ∧ status = statusClosed ∧
      (LockedTk.mk t true).ticket.canClose = false then _ else _) = _
  rw [if_neg hcond]

theorem setStatus_single (fs : TStore) (id status : Str) (validate : Bool) :
    setStatusMultiple fs [id] status validate = statusStep fs id status validate {} := by
  unfold setStatusMultiple setStatusGo
  rfl

/-- A record whose non-empty `tests` section and unset `tests_passed`
flag block closing. -/
def tkBlocked : Ticket :=
  { id := str "kt-x", status := statusOpen,
    created := str "2026-01-09T10:00:00Z", ty := str "task", priority := 2,
    testsPassed := false, title := str "Blocked task", tests := str "- T1" }

def fsBlocked : TStore := [(str "kt-x", Marshal tkBlocked)]

/-- Counterexample to C3 as stated: the generic status command
(`kt status <id> closed`, `runStatus`) performs no `CanClose` check and
successfully persists `closed` on a record with a non-empty tests
section and `tests_passed = false`. -/
theorem status_cmd_bypasses_tests_gate :
    tkBlocked.tests ≠ [] ∧ tkBlocked.testsPassed = false ∧
    runStatusModel fsBlocked (str "kt-x") statusClosed =
      .ok [(str "kt-x", Marshal {tkBlocked with status := statusClosed})] ∧
    Parse (Marshal {tkBlocked with status := statusClosed}) =
      .ok {tkBlocked with status := statusClosed} ∧
    ({tkBlocked with status := statusClosed}).status = statusClosed := by
  refine ⟨by decide, rfl, ?_, ?_, rfl⟩
  · have hr : ResolveForUpdateModel fsBlocked (str "kt-x") = .ok ⟨tkBlocked, true⟩ :=
      ResolveForUpdate_single tkBlocked (by decide)
    unfold runStatusModel
    rw [hr]
    rfl
  · exact roundtrip_parse_marshal _ (by decide)

/-- C3 (amended): the close operation — `setStatusMultiple` with close
validation, as used by the `close` command — cannot set a record with a
non-empty tests section and `tests_passed = false` to closed: the id is
reported as an error and the store is left unchanged; after
`tests_passed` is set to true, the same transition succeeds. -/
theorem close_cmd_tests_gate (t : Ticket) (hv : Valid t) (ht : t.tests ≠ []) :
    (t.testsPassed = false →
      setStatusMultiple [(t.id, Marshal t)] [t.id] statusClosed true =
        ([(t.id, Marshal t)],
         { updated := [], errors := [(t.id, .cannotClose t.id)] })) ∧
    (t.testsPassed = true →
      setStatusMultiple [(t.id, Marshal t)] [t.id] statusClosed true =
        ([(t.id, Marshal {t with status := statusClosed})],
         { updated := [t.id], errors := [] })) := by
  constructor
  · intro hf
    have hcc : t.canClose = false := by
      simp only [Ticket.canClose]
      simp [ht, hf]
    rw [setStatus_single,
      statusStep_blocked _ _ _ t (ResolveForUpdate_single t hv) hcc]
    rfl
  · intro htr
    have hcc : t.canClose = true := by
      simp only [Ticket.canClose]
      simp [htr]
    rw [setStatus_single,
      statusStep_save _ _ _ _ _ t (ResolveForUpdate_single t hv)
        (fun h => by
          have h3 := h.2.2
          rw [hcc] at h3
          exact absurd h3 (by decide)),
      setFS_single]
    rfl

def tkPassed : Ticket := {tkBlocked with testsPassed := true}

theorem close_cmd_tests_gate_witness :
    Valid tkBlocked ∧ tkBlocked.tests ≠ [] ∧
    setStatusMultiple [(tkBlocked.id, Marshal tkBlocked)] [tkBlocked.id]
        statusClosed true =
      ([(tkBlocked.id, Marshal tkBlocked)],
       { updated := [], errors := [(tkBlocked.id, .cannotClose tkBlocked.id)] }) ∧
    setStatusMultiple [(tkPassed.id, Marshal tkPassed)] [tkPassed.id]
        statusClosed true =
      ([(tkPassed.id, Marshal {tkPassed with status := statusClosed})],
       { updated := [tkPassed.id], errors := [] }) :=
  ⟨by decide, by decide,
   (close_cmd_tests_gate tkBlocked (by decide) (by decide)).1 rfl,
   (close_cmd_tests_gate tkPassed (by decide) (by decide)).2 rfl⟩

/-! ## Link commands (`internal/cmd/link.go`) with a lock-event trace

To check the multi-record locking protocol, each store call the link
commands make is annotated with the sequence of lock events it performs:
`Get` takes and releases the per-record shared lock, the glob fallback
takes and releases the store-wide shared lock, and `Save` takes the
per-record exclusive lock, writes, and releases it. -/

inductive Ev where
  | acqShared (id : Str)
  | relShared (id : Str)
  | acqStoreShared
  | relStoreShared
  | acqExcl (id : Str)
  | write (id : Str)
  | relExcl (id : Str)
deriving DecidableEq, Repr

/-- `Store.Resolve` with its lock events. -/
def resolveTrace (fs : TStore) (q : Str) :
    Except StoreErr Ticket × List Ev :=
  match GetModel fs q with
  | .ok t => (.ok t, [.acqShared q, .relShared q])
  | .error _ =>
    let evs := [Ev.acqShared q, Ev.relShared q, Ev.acqStoreShared, Ev.relStoreShared]
    match candidates fs q with
    | [] => (.error (.notFound q), evs)
    | [id] => (GetModel fs id, evs ++ [.acqShared id, .relShared id])
    | ids => (.error (.ambiguous q ids), evs)

def containsString (l : List Str) (s : Str) : Bool := l.any (fun x => x = s)

def removeString (l : List Str) (s : Str) : List Str := l.filter (fun x => ¬ x = s)

/-- The double loop of `runLinkAdd`: for ticket `i`, append every other
ticket's id not already present. -/
def linkTicket (i : Nat) (t : Ticket) (its : List (Nat × Ticket)) : Ticket :=
  its.foldl (fun t1 jt2 =>
    if jt2.1 = i then t1
    else if containsString t1.links jt2.2.id then t1
    else {t1 with links := t1.links ++ [jt2.2.id]}) t

def linkAllPairs (ts : List Ticket) : List Ticket :=
  ts.enum.map (fun it => linkTicket it.1 it.2 ts.enum)

/-- The resolve phase of `runLinkAdd`: resolve every argument in order,
failing on the first error. -/
def resolveAll (fs : TStore) (args : List Str) :
    Except StoreErr (List Ticket × List Ev) :=
  match args with
  | [] => .ok ([], [])
  | q :: rest =>
    match resolveTrace fs q with
    | (.error e, _) => .error e
    | (.ok t, evs) =>
      match resolveAll fs rest with
      | .error e => .error e
      | .ok (ts, evs2) => .ok (t :: ts, evs ++ evs2)

/-- The save phase of `runLinkAdd`: save each ticket in order; each
`Save` acquires the record's exclusive lock, writes, and releases it
before the next save begins. -/
def saveAll (fs : TStore) (ts : List Ticket) : TStore × List Ev :=
  match ts with
  | [] => (fs, [])
  | t :: rest =>
    let fs2 := setFS fs t.id (Marshal t)
    let (fs3, evs) := saveAll fs2 rest
    (fs3, [Ev.acqExcl t.id, Ev.write t.id, Ev.relExcl t.id] ++ evs)

/-- `runLinkAdd`: resolve all arguments, add symmetric links in memory,
then save every ticket. -/
def runLinkAddModel (fs : TStore) (args : List Str) :
    Except StoreErr (TStore × List Ev) :=
  match resolveAll fs args with
  | .error e => .error e
  | .ok (ts, evs) =>
    let ts2 := linkAllPairs ts
    let (fs2, evs2) := saveAll fs ts2
    .ok (fs2, evs ++ evs2)

/-- `runLinkRm`: resolve both arguments, remove the link in both
directions in memory, then save the first ticket and then the second. -/
def runLinkRmModel (fs : TStore) (a b : Str) :
    Except StoreErr (TStore × List Ev) :=
  match resolveTrace fs a with
  | (.error e, _) => .error e
  | (.ok t1, evs1) =>
    match resolveTrace fs b with
    | (.error e, _) => .error e
    | (.ok t2, evs2) =>
      let t1b := {t1 with links := removeString t1.links t2.id}
      let t2b := {t2 with links := removeString t2.links t1.id}
      let p := saveAll fs [t1b, t2b]
      .ok (p.1, evs1 ++ evs2 ++ p.2)

/-- A trace holds no exclusive-lock acquisition and no write: it only
ever reads under shared locks. -/
def sharedOnly (evs : List Ev) : Prop :=
  ∀ e ∈ evs, ∀ i, e ≠ .acqExcl i ∧ e ≠ .write i ∧ e ≠ .relExcl i

theorem sharedOnly_append {a b : List Ev} (ha : sharedOnly a)
    (hb : sharedOnly b) : sharedOnly (a ++ b) := by
  intro e he i
  rcases List.mem_append.mp he with h | h
  · exact ha e h i
  · exact hb e h i

theorem resolveTrace_sharedOnly (fs : TStore) (q : Str) :
    sharedOnly (resolveTrace fs q).2 := by
  unfold resolveTrace
  rcases GetModel fs q with e | t
  · rcases candidates fs q with _ | ⟨c1, cs⟩
    · intro x hx i
      simp only [List.mem_cons, List.not_mem_nil, or_false] at hx
      rcases hx with h | h | h | h <;> subst h <;>
        exact ⟨by simp, by simp, by simp⟩
    · rcases cs with _ | ⟨c2, cs2⟩
      · intro x hx i
        simp only [List.mem_append, List.mem_cons,
          List.not_mem_nil, or_false] at hx
        rcases hx with (h | h | h | h) | (h | h) <;> subst h <;>
          exact ⟨by simp, by simp, by simp⟩
      · intro x hx i
        simp only [List.mem_cons, List.not_mem_nil, or_false] at hx
        rcases hx with h | h | h | h <;> subst h <;>
          exact ⟨by simp, by simp, by simp⟩
  · intro x hx i
    simp only [List.mem_cons, List.not_mem_nil, or_false] at hx
    rcases hx with h | h <;> subst h <;> exact ⟨by simp, by simp, by simp⟩

theorem resolveAll_sharedOnly (fs : TStore) (args : List Str)
    (ts : List Ticket) (evs : List Ev)
    (h : resolveAll fs args = .ok (ts, evs)) : sharedOnly evs := by
  induction args generalizing ts evs with
  | nil =>
    unfold resolveAll at h
    have h3 : (Except.ok (([] : List Ticket), ([] : List Ev)) :
        Except StoreErr (List Ticket × List Ev)) = .ok (ts, evs) := h
    simp only [Except.ok.injEq, Prod.mk.injEq] at h3
    rw [← h3.2]
    intro e he
    simp at he
  | cons q rest ih =>
    unfold resolveAll at h
    rcases hrt : resolveTrace fs q with ⟨r, evs1⟩
    rw [hrt] at h
    rcases r with e1 | t1
    · have h3 : (Except.error e1 : Except StoreErr (List Ticket × List Ev)) =
          .ok (ts, evs) := h
      exact absurd h3 (by simp)
    · rcases hrest : resolveAll fs rest with e2 | ⟨ts2, evs2⟩
      · rw [hrest] at h
        have h3 : (Except.error e2 : Except StoreErr (List Ticket × List Ev)) =
            .ok (ts, evs) := h
        exact absurd h3 (by simp)
      · rw [hrest] at h
        have h3 : (Except.ok (t1 :: ts2, evs1 ++ evs2) :
            Except StoreErr (List Ticket × List Ev)) = .ok (ts, evs) := h
        simp only [Except.ok.injEq, Prod.mk.injEq] at h3
        rw [← h3.2]
        have h4 := resolveTrace_sharedOnly fs q
        rw [hrt] at h4
        exact sharedOnly_append h4 (ih ts2 evs2 hrest)

/-! ## Claim C5: the multi-record locking protocol -/

def tkA : Ticket :=
  { id := str "kt-a", status := statusOpen,
    created := str "2026-01-09T10:00:00Z", ty := str "task", priority := 2,
    title := str "A" }

def tkB : Ticket :=
  { id := str "kt-b", status := statusOpen,
    created := str "2026-01-09T11:00:00Z", ty := str "task", priority := 2,
    title := str "B" }

def fsAB : TStore := [(str "kt-a", Marshal tkA), (str "kt-b", Marshal tkB)]

/-- The trace produced by `kt link add kt-b kt-a`. -/
def traceBA : List Ev :=
  [.acqShared (str "kt-b"), .relShared (str "kt-b"),
   .acqShared (str "kt-a"), .relShared (str "kt-a"),
   .acqExcl (str "kt-b"), .write (str "kt-b"), .relExcl (str "kt-b"),
   .acqExcl (str "kt-a"), .write (str "kt-a"), .relExcl (str "kt-a")]

/-- Counterexample to C5 as stated: linking `kt-b kt-a` acquires the
exclusive locks in argument order (`kt-b` before `kt-a`), not in sorted
order, and releases `kt-b`'s exclusive lock before `kt-a` is written —
so the locks are neither sorted nor held until every record is saved. -/
theorem link_add_violates_protocol :
    runLinkAddModel fsAB [str "kt-b", str "kt-a"] =
      .ok ([(str "kt-a", Marshal {tkA with links := [str "kt-b"]}),
            (str "kt-b", Marshal {tkB with links := [str "kt-a"]})], traceBA) ∧
    traceBA.indexOf (.relExcl (str "kt-b")) < traceBA.indexOf (.write (str "kt-a")) ∧
    traceBA.indexOf (.acqExcl (str "kt-b")) < traceBA.indexOf (.acqExcl (str "kt-a")) ∧
    str "kt-a" < str "kt-b" := by
  exact ⟨rfl, by decide, by decide, by decide⟩

theorem linkAdd_trace_aux (fs : TStore) (args : List Str)
    (fs2 : TStore) (tr : List Ev)
    (h : runLinkAddModel fs args = .ok (fs2, tr)) :
    ∃ ts evs, resolveAll fs args = .ok (ts, evs) ∧
      tr = evs ++ ((linkAllPairs ts).map
        (fun t => [Ev.acqExcl t.id, Ev.write t.id, Ev.relExcl t.id])).flatten ∧
      sharedOnly evs := by
  unfold runLinkAddModel at h
  rcases hra : resolveAll fs args with e | ⟨ts, evs⟩
  · rw [hra] at h
    have h2 : (Except.error e : Except StoreErr (TStore × List Ev)) = .ok (fs2, tr) := h
    exact absurd h2 (by simp)
  · rw [hra] at h
    have h2 : (Except.ok (((saveAll fs (linkAllPairs ts)).1 : TStore),
        evs ++ (saveAll fs (linkAllPairs ts)).2) :
        Except StoreErr (TStore × List Ev)) = .ok (fs2, tr) := h
    simp only [Except.ok.injEq, Prod.mk.injEq] at h2
    refine ⟨ts, evs, rfl, ?_, resolveAll_sharedOnly fs args ts evs hra⟩
    rw [← h2.2]
    congr 1
    -- the save phase emits exactly one acquire/write/release triple per ticket
    generalize linkAllPairs ts = us
    clear h2 h hra
    induction us generalizing fs with
    | nil => rfl
    | cons u us ih =>
      show (saveAll fs (u :: us)).2 = _
      unfold saveAll
      simp only [List.map_cons, List.flatten_cons]
      rw [← ih (setFS fs u.id (Marshal u))]

theorem linkRm_trace_aux (fs : TStore) (a b : Str)
    (fs2 : TStore) (tr : List Ev)
    (h : runLinkRmModel fs a b = .ok (fs2, tr)) :
    ∃ t1 t2 evs1 evs2, resolveTrace fs a = (.ok t1, evs1) ∧
      resolveTrace fs b = (.ok t2, evs2) ∧
      tr = (evs1 ++ evs2) ++
        ([{t1 with links := removeString t1.links t2.id},
          {t2 with links := removeString t2.links t1.id}].map
          (fun t => [Ev.acqExcl t.id, Ev.write t.id, Ev.relExcl t.id])).flatten ∧
      sharedOnly (evs1 ++ evs2) := by
  unfold runLinkRmModel at h
  rcases hra : resolveTrace fs a with ⟨r1, evs1⟩
  rw [hra] at h
  rcases r1 with e1 | t1
  · have h2 : (Except.error e1 : Except StoreErr (TStore × List Ev)) = .ok (fs2, tr) := h
    exact absurd h2 (by simp)
  · rcases hrb : resolveTrace fs b with ⟨r2, evs2⟩
    rw [hrb] at h
    rcases r2 with e2 | t2
    · have h2 : (Except.error e2 : Except StoreErr (TStore × List Ev)) = .ok (fs2, tr) := h
      exact absurd h2 (by simp)
    · have h2 : (Except.ok
          ((saveAll fs [{t1 with links := removeString t1.links t2.id},
            {t2 with links := removeString t2.links t1.id}]).1,
           evs1 ++ evs2 ++
            (saveAll fs [{t1 with links := removeString t1.links t2.id},
              {t2 with links := removeString t2.links t1.id}]).2) :
          Except StoreErr (TStore × List Ev)) = .ok (fs2, tr) := h
      simp only [Except.ok.injEq, Prod.mk.injEq] at h2
      have h4 := resolveTrace_sharedOnly fs a
      rw [hra] at h4
      have h5 := resolveTrace_sharedOnly fs b
      rw [hrb] at h5
      refine ⟨t1, t2, evs1, evs2, rfl, rfl, ?_, sharedOnly_append h4 h5⟩
      rw [← h2.2]
      rfl

def fsABLinked : TStore :=
  [(str "kt-a", Marshal {tkA with links := [str "kt-b"]}),
   (str "kt-b", Marshal {tkB with links := [str "kt-a"]})]

def traceAB : List Ev :=
  [.acqShared (str "kt-a"), .relShared (str "kt-a"),
   .acqShared (str "kt-b"), .relShared (str "kt-b"),
   .acqExcl (str "kt-a"), .write (str "kt-a"), .relExcl (str "kt-a"),
   .acqExcl (str "kt-b"), .write (str "kt-b"), .relExcl (str "kt-b")]

/-- C5 (amended): both link commands — `runLinkAdd` and `runLinkRm` —
resolve every involved id first under read locks without mutating
anything, compute the new link lists in memory, and only then save each
ticket sequentially in argument order: on a successful run the trace is
the resolve-phase events — shared-lock events only, no exclusive
acquire and no write — followed, for each saved ticket in argument
order, by that ticket's exclusive acquire, write and release,
contiguous and in that order.  The canonical ids are not sorted
lexicographically and no exclusive lock is held across more than one
record's save. -/
theorem link_cmds_trace_shape (fs : TStore) :
    (∀ args fs2 tr, runLinkAddModel fs args = .ok (fs2, tr) →
      ∃ ts evs, resolveAll fs args = .ok (ts, evs) ∧
        tr = evs ++ ((linkAllPairs ts).map
          (fun t => [Ev.acqExcl t.id, Ev.write t.id, Ev.relExcl t.id])).flatten ∧
        sharedOnly evs) ∧
    (∀ a b fs2 tr, runLinkRmModel fs a b = .ok (fs2, tr) →
      ∃ t1 t2 evs1 evs2, resolveTrace fs a = (.ok t1, evs1) ∧
        resolveTrace fs b = (.ok t2, evs2) ∧
        tr = (evs1 ++ evs2) ++
          ([{t1 with links := removeString t1.links t2.id},
            {t2 with links := removeString t2.links t1.id}].map
            (fun t => [Ev.acqExcl t.id, Ev.write t.id, Ev.relExcl t.id])).flatten ∧
        sharedOnly (evs1 ++ evs2)) :=
  ⟨fun args fs2 tr h => linkAdd_trace_aux fs args fs2 tr h,
   fun a b fs2 tr h => linkRm_trace_aux fs a b fs2 tr h⟩

theorem link_cmds_trace_shape_witness :
    (∃ ts evs, resolveAll fsAB [str "kt-a", str "kt-b"] = .ok (ts, evs) ∧
      traceAB = evs ++ ((linkAllPairs ts).map
        (fun t => [Ev.acqExcl t.id, Ev.write t.id, Ev.relExcl t.id])).flatten ∧
      sharedOnly evs) ∧
    (∃ t1 t2 evs1 evs2, resolveTrace fsAB (str "kt-a") = (.ok t1, evs1) ∧
      resolveTrace fsAB (str "kt-b") = (.ok t2, evs2) ∧
      traceAB = (evs1 ++ evs2) ++
        ([{t1 with links := removeString t1.links t2.id},
          {t2 with links := removeString t2.links t1.id}].map
          (fun t => [Ev.acqExcl t.id, Ev.write t.id, Ev.relExcl t.id])).flatten ∧
      sharedOnly (evs1 ++ evs2)) :=
  ⟨(link_cmds_trace_shape fsAB).1 [str "kt-a", str "kt-b"] fsABLinked traceAB rfl,
   (link_cmds_trace_shape fsAB).2 (str "kt-a") (str "kt-b") fsAB traceAB rfl⟩

/-! ## Concurrent `Store.Update` (`internal/store/store.go` 219-232,
`internal/filelock` acquire)

`Update` acquires the record's exclusive flock, reads and parses the
file, applies the mutation, writes, and releases.  We model `n`
concurrent callers each incrementing a numeric field by 1 as an
interleaved transition system: the file content is abstracted to the
numeric field's value, the flock to an `Option (Fin n)` that an
`acquire` step can take only when it is free (the flock blocks), and
each process runs acquire → read → write(v+1) → release in program
order.  Read, write and release steps carry no lock-freeness
side-condition: mutual exclusion is proved, not assumed. -/

inductive PState where
  | start
  | acquired
  | readv (v : Nat)
  | wrote
  | done
deriving DecidableEq, Repr

structure CState (n : Nat) where
  file : Nat
  lock : Option (Fin n)
  procs : Fin n → PState

/-- One interleaving step: some process advances one instruction of
`Update`.  `write` stores `v + 1` where `v` is the value that process
read — the read-modify-write shape in which a lost update would occur
if two processes could both read before either wrote. -/
inductive UStep {n : Nat} : CState n → CState n → Prop where
  | acquire (s : CState n) (i : Fin n) :
      s.procs i = .start → s.lock = none →
      UStep s ⟨s.file, some i, Function.update s.procs i .acquired⟩
  | read (s : CState n) (i : Fin n) :
      s.procs i = .acquired →
      UStep s ⟨s.file, s.lock, Function.update s.procs i (.readv s.file)⟩
  | write (s : CState n) (i : Fin n) (v : Nat) :
      s.procs i = .readv v →
      UStep s ⟨v + 1, s.lock, Function.update s.procs i .wrote⟩
  | release (s : CState n) (i : Fin n) :
      s.procs i = .wrote →
      UStep s ⟨s.file, none, Function.update s.procs i .done⟩

def initState (n : Nat) : CState n := ⟨0, none, fun _ => .start⟩

/-- A process is in its critical section (between acquire and release). -/
def mid : PState → Bool
  | .acquired => true
  | .readv _ => true
  | .wrote => true
  | _ => false

/-- A process has already performed its write. -/
def wdone : PState → Bool
  | .wrote => true
  | .done => true
  | _ => false

def Inv {n : Nat} (s : CState n) : Prop :=
  (∀ i, mid (s.procs i) = true ↔ s.lock = some i) ∧
  (∀ i v, s.procs i = .readv v → v = s.file) ∧
  s.file = (Finset.univ.filter (fun i => wdone (s.procs i) = true)).card

theorem inv_init (n : Nat) : Inv (initState n) := by
  refine ⟨?_, ?_, ?_⟩
  · intro i
    simp [initState, mid]
  · intro i v h
    exact absurd h (by simp [initState])
  · simp [initState, wdone]

theorem inv_step {n : Nat} {s s2 : CState n} (h : Inv s) (hs : UStep s s2) :
    Inv s2 := by
  obtain ⟨h1, h2, h3⟩ := h
  cases hs with
  | acquire i hstart hlock =>
    refine ⟨?_, ?_, ?_⟩
    · intro j
      by_cases hj : j = i
      · subst hj
        simp [Function.update_same, mid]
      · simp only [Function.update_noteq hj]
        have := h1 j
        rw [hlock] at this
        simp only [this]
        constructor
        · intro h4
          exact absurd h4 (by simp)
        · intro h4
          exact absurd (Option.some.injEq .. ▸ h4) (fun h5 => hj h5.symm)
    · intro j v hj
      by_cases hji : j = i
      · subst hji
        simp only [Function.update_same] at hj
        exact absurd hj (by simp)
      · simp only [Function.update_noteq hji] at hj
        exact h2 j v hj
    · show s.file = _
      rw [h3]
      congr 1
      apply Finset.filter_congr
      intro j _
      by_cases hj : j = i
      · subst hj
        simp [Function.update_same, hstart, wdone]
      · simp [Function.update_noteq hj]
  | read i hacq =>
    have hlock : s.lock = some i := (h1 i).mp (by rw [hacq]; rfl)
    refine ⟨?_, ?_, ?_⟩
    · intro j
      by_cases hj : j = i
      · subst hj
        simp only [Function.update_same]
        show (mid (.readv s.file) = true) ↔ _
        simp [mid, hlock]
      · simp only [Function.update_noteq hj]
        exact h1 j
    · intro j v hj
      by_cases hji : j = i
      · subst hji
        simp only [Function.update_same] at hj
        have h4 : s.file = v := PState.readv.injEq .. ▸ hj
        exact h4.symm
      · simp only [Function.update_noteq hji] at hj
        exact h2 j v hj
    · show s.file = _
      rw [h3]
      congr 1
      apply Finset.filter_congr
      intro j _
      by_cases hj : j = i
      · subst hj
        simp [Function.update_same, hacq, wdone]
      · simp [Function.update_noteq hj]
  | write i v hread =>
    have hlock : s.lock = some i := (h1 i).mp (by rw [hread]; rfl)
    have hv : v = s.file := h2 i v hread
    refine ⟨?_, ?_, ?_⟩
    · intro j
      by_cases hj : j = i
      · subst hj
        simp only [Function.update_same]
        show (mid .wrote = true) ↔ _
        simp [mid, hlock]
      · simp only [Function.update_noteq hj]
        exact h1 j
    · intro j w hj
      by_cases hji : j = i
      · subst hji
        simp only [Function.update_same] at hj
        exact absurd hj (by simp)
      · simp only [Function.update_noteq hji] at hj
        have hmid : mid (s.procs j) = true := by rw [hj]; rfl
        have := (h1 j).mp hmid
        rw [hlock] at this
        have h5 : i = j := Option.some.injEq .. ▸ this
        exact absurd h5.symm hji
    · show v + 1 = (Finset.univ.filter
          (fun j => wdone (Function.update s.procs i PState.wrote j) = true)).card
      have hset : (Finset.univ.filter
          (fun j => wdone (Function.update s.procs i .wrote j) = true)) =
          insert i (Finset.univ.filter (fun j => wdone (s.procs j) = true)) := by
        apply Finset.ext
        intro j
        simp only [Finset.mem_filter, Finset.mem_insert, Finset.mem_univ, true_and]
        by_cases hj : j = i
        · subst hj
          simp [Function.update_same, wdone]
        · simp only [Function.update_noteq hj]
          simp [hj]
      have hnotmem : i ∉ Finset.univ.filter (fun j => wdone (s.procs j) = true) := by
        simp [Finset.mem_filter, hread, wdone]
      rw [hset, Finset.card_insert_of_not_mem hnotmem, ← h3, hv]
  | release i hw =>
    have hlock : s.lock = some i := (h1 i).mp (by rw [hw]; rfl)
    refine ⟨?_, ?_, ?_⟩
    · intro j
      by_cases hj : j = i
      · subst hj
        simp [Function.update_same, mid]
      · simp only [Function.update_noteq hj]
        have := h1 j
        rw [hlock] at this
        constructor
        · intro h4
          have h5 := this.mp h4
          exact absurd (Option.some.injEq .. ▸ h5).symm hj
        · intro h4
          exact absurd h4 (by simp)
    · intro j v hj
      by_cases hji : j = i
      · subst hji
        simp only [Function.update_same] at hj
        exact absurd hj (by simp)
      · simp only [Function.update_noteq hji] at hj
        exact h2 j v hj
    · show s.file = _
      rw [h3]
      congr 1
      apply Finset.filter_congr
      intro j _
      by_cases hj : j = i
      · subst hj
        simp [Function.update_same, hw, wdone]
      · simp [Function.update_noteq hj]

theorem inv_reach {n : Nat} {s s2 : CState n}
    (h : Relation.ReflTransGen (UStep (n := n)) s s2) (h0 : Inv s) : Inv s2 := by
  induction h with
  | refl => exact h0
  | tail _ hstep ih => exact inv_step ih hstep

/-! ## Claim C2: no lost updates under the per-record exclusive lock -/

/-- C2: starting from value 0, any interleaving of `n` concurrent
`Update` callers that each read the field, add 1, and write it back —
with the per-record exclusive flock taken for the whole
read-modify-write, as `Store.Update` does — leaves the field holding
exactly `n` once every caller has finished.  No lost updates, for any
`n` and any interleaving the lock admits. -/
theorem no_lost_updates (n : Nat) (s : CState n)
    (h : Relation.ReflTransGen (UStep (n := n)) (initState n) s)
    (hdone : ∀ i, s.procs i = .done) : s.file = n := by
  have hinv := inv_reach h (inv_init n)
  rw [hinv.2.2]
  have : (Finset.univ.filter (fun i => wdone (s.procs i) = true)) =
      (Finset.univ : Finset (Fin n)) := by
    apply Finset.filter_true_of_mem
    intro i _
    rw [hdone i]
    rfl
  rw [this, Finset.card_univ, Fintype.card_fin]

def finalState1 : CState 1 :=
  ⟨1, none,
    Function.update (Function.update (Function.update (Function.update
      (fun _ => PState.start) 0 PState.acquired) 0 (PState.readv 0))
      0 PState.wrote) 0 PState.done⟩

theorem no_lost_updates_witness : finalState1.file = 1 := by
  apply no_lost_updates 1 finalState1
  · exact .head (UStep.acquire _ 0 rfl rfl)
      (.head (UStep.read _ 0 (by simp [Function.update, initState]))
        (.head (UStep.write _ 0 0 (by simp [Function.update, initState]))
          (.single (UStep.release _ 0 (by simp [Function.update, initState])))))
  · intro i
    fin_cases i
    simp [finalState1, Function.update]

end KT